import Mathlib

/-!
Verification development for `releng/deps.py`, the build orchestration engine
for prebuilt dependency bundles.  The Python source is shallowly embedded:
pure fragments become Lean functions, stateful fragments become explicit
state passing over a small `BuildState` record together with an effect trace,
external collaborators (git, the meson build tool, the network) become
oracle parameters, and fallible fragments return `Option`.
-/

namespace Releng

/-- `class Bundle(Enum)` with members `TOOLCHAIN` and `SDK`. -/
inductive Bundle
| toolchain
| sdk
deriving DecidableEq

/-- `class SourceState(Enum)` with members `PRISTINE` and `MODIFIED`. -/
inductive SourceState
| pristine
| modified
deriving DecidableEq

/-- `@dataclass OptionSpec`: a meson option value plus optional predicate. -/
structure OptionSpec where
  value : String
  when : Option String
deriving DecidableEq

/-- `@dataclass DependencySpec`: a target package identifier plus optional predicate. -/
structure DependencySpec where
  identifier : String
  when : Option String
deriving DecidableEq

/-- `@dataclass PackageSpec`. -/
structure PackageSpec where
  identifier : String
  name : String
  version : String
  url : String
  options : List OptionSpec
  dependencies : List DependencySpec
  scope : Option String
  when : Option String
deriving DecidableEq

/-- Modelled from the spec: `MachineSpec` (from `releng/machine_spec.py`, which is
not part of the sources here) is a host-description record with an operating
system, architecture, build configuration and a derived full identifier string;
`deps.py` only reads those fields, so they are modelled as plain fields. -/
structure MachineSpec where
  os : String
  arch : String
  config : String
  identifier : String
  libdatadir : String
deriving DecidableEq

/-- `Bundle.name.lower()`: the lower-cased name of the enum member
(`"toolchain"` or `"sdk"`). -/
def bundleNameLower : Bundle → String
| .toolchain => "toolchain"
| .sdk => "sdk"

/-- `compute_bundle_parameters(bundle, machine, version)`: for a Windows
toolchain the os/arch/config part is hardwired to `"windows-x86"`, otherwise
it is the machine's identifier; the URL is `BUNDLE_URL` with the version and
filename substituted in. -/
def compute_bundle_parameters (bundle : Bundle) (machine : MachineSpec)
    (version : String) : String × String :=
  let os_arch_config :=
    if bundle = Bundle.toolchain ∧ machine.os = "windows" then "windows-x86"
    else machine.identifier
  let filename := bundleNameLower bundle ++ "-" ++ os_arch_config ++ ".tar.bz2"
  let url := "https://build.frida.re/deps/" ++ version ++ "/" ++ filename
  (url, filename)

/-- C10: for every machine whose OS is `"windows"`, `compute_bundle_parameters`
for the Toolchain bundle yields the filename `toolchain-windows-x86.tar.bz2`
(and the corresponding URL) regardless of the machine's architecture,
configuration or identifier, whereas the SDK bundle and non-Windows toolchains
use the machine's full identifier in the filename. -/
theorem compute_bundle_parameters_windows_toolchain
    (m : MachineSpec) (v : String) (hwin : m.os = "windows") :
    compute_bundle_parameters Bundle.toolchain m v =
      ("https://build.frida.re/deps/" ++ v ++ "/" ++ "toolchain-windows-x86.tar.bz2",
       "toolchain-windows-x86.tar.bz2") ∧
    (compute_bundle_parameters Bundle.sdk m v).2 =
      "sdk-" ++ m.identifier ++ ".tar.bz2" ∧
    (∀ m' : MachineSpec, m'.os ≠ "windows" →
      (compute_bundle_parameters Bundle.toolchain m' v).2 =
        "toolchain-" ++ m'.identifier ++ ".tar.bz2") := by
  refine ⟨?_, ?_, ?_⟩
  · simp [compute_bundle_parameters, hwin, bundleNameLower]
  · simp [compute_bundle_parameters, bundleNameLower]
  · intro m' hm'
    simp [compute_bundle_parameters, bundleNameLower, hm']

/-- C10 witness: the theorem applied to a concrete Windows machine. -/
theorem compute_bundle_parameters_windows_toolchain_witness :
    compute_bundle_parameters Bundle.toolchain
      ⟨"windows", "arm64", "release", "windows-arm64", "lib"⟩ "1.0" =
      ("https://build.frida.re/deps/" ++ "1.0" ++ "/" ++ "toolchain-windows-x86.tar.bz2",
       "toolchain-windows-x86.tar.bz2") :=
  (compute_bundle_parameters_windows_toolchain
    ⟨"windows", "arm64", "release", "windows-arm64", "lib"⟩ "1.0" rfl).1

/-! ### The `wait` polling loop

`wait(bundle, machine)` issues a HEAD request against the bundle URL in an
unbounded `while True` loop.  Each iteration is one probe; the outcome of the
`urllib.request.urlopen` call is modelled by an oracle `probe : Nat →
ProbeOutcome` giving the outcome of the `k`-th probe.  The loop body:
a successful open returns; an `HTTPError` with code ≠ 404 returns (silently);
any other exception propagates out of `wait`; on a 404 the loop prints a
retry message, sleeps `5 * 60` seconds and probes again.  The unbounded loop
is embedded with fuel; `none` means the fuel ran out while the loop was still
polling. -/

/-- Outcome of one `urllib.request.urlopen` HEAD probe. -/
inductive ProbeOutcome
| ok
| httpError (code : Nat)
| exception
deriving DecidableEq

/-- Observable events of the `wait` loop: the retry print and the sleep. -/
inductive WaitEvent
| printedRetry
| slept (seconds : Nat)
deriving DecidableEq

/-- How `wait` terminates: a plain `return`, or an exception escaping it. -/
inductive WaitExit
| returned
| raised
deriving DecidableEq

/-- The `while True` loop of `wait`, with fuel.  Probe `k` of iteration `k`
is `probe 0` after shifting the oracle at each iteration. -/
def waitLoop : Nat → (Nat → ProbeOutcome) → Option (WaitExit × List WaitEvent)
| 0, _ => none
| fuel + 1, probe =>
  match probe 0 with
  | .ok => some (.returned, [])
  | .exception => some (.raised, [])
  | .httpError c =>
    if c ≠ 404 then
      some (.returned, [])
    else
      match waitLoop fuel (fun i => probe (i + 1)) with
      | none => none
      | some (ex, evs) => some (ex, .printedRetry :: .slept (5 * 60) :: evs)

/-- The events produced by `n` unsuccessful (404) polling iterations. -/
def pollEvents : Nat → List WaitEvent
| 0 => []
| n + 1 => .printedRetry :: .slept (5 * 60) :: pollEvents n

/-- C8 counterexample: with the very first probe yielding HTTP 500 (an error
other than "not found"), `wait` returns normally with an empty event trace —
it stops waiting but neither reports the error nor lets it escape, refuting
"it reports the error and stops waiting ... fatal rather than retried". -/
theorem wait_non_notfound_silent_return :
    waitLoop 5 (fun _ => ProbeOutcome.httpError 500) =
      some (WaitExit.returned, []) := by
  rfl

/-- C8 (amended): the wait loop re-polls the remote bundle location on a fixed
five-minute (300 second) interval for as long as the probe yields HTTP 404;
it returns when the artifact appears; on an HTTP error other than 404 it stops
waiting and returns silently, without reporting; a non-HTTP exception
propagates out of the loop. -/
theorem wait_poll_behavior (probe : Nat → ProbeOutcome) (n fuel : Nat)
    (hfuel : n < fuel) (h404 : ∀ i, i < n → probe i = ProbeOutcome.httpError 404) :
    (probe n = ProbeOutcome.ok →
      waitLoop fuel probe = some (WaitExit.returned, pollEvents n)) ∧
    (∀ c, c ≠ 404 → probe n = ProbeOutcome.httpError c →
      waitLoop fuel probe = some (WaitExit.returned, pollEvents n)) ∧
    (probe n = ProbeOutcome.exception →
      waitLoop fuel probe = some (WaitExit.raised, pollEvents n)) := by
  induction n generalizing fuel probe with
  | zero =>
    obtain ⟨fuel, rfl⟩ : ∃ f, fuel = f + 1 := ⟨fuel - 1, by omega⟩
    refine ⟨?_, ?_, ?_⟩
    · intro h; simp [waitLoop, h, pollEvents]
    · intro c hc h; simp [waitLoop, h, hc, pollEvents]
    · intro h; simp [waitLoop, h, pollEvents]
  | succ n ih =>
    obtain ⟨fuel, rfl⟩ : ∃ f, fuel = f + 1 := ⟨fuel - 1, by omega⟩
    have h0 : probe 0 = ProbeOutcome.httpError 404 := h404 0 (Nat.succ_pos n)
    have hrec := ih (fun i => probe (i + 1)) fuel (by omega)
      (fun i hi => h404 (i + 1) (by omega))
    refine ⟨?_, ?_, ?_⟩
    · intro h
      have := hrec.1 h
      simp [waitLoop, h0, this, pollEvents]
    · intro c hc h
      have := hrec.2.1 c hc h
      simp [waitLoop, h0, this, pollEvents]
    · intro h
      have := hrec.2.2 h
      simp [waitLoop, h0, this, pollEvents]

/-- C8 witness: two 404 probes followed by the artifact appearing make the
loop poll twice (two prints, two 300-second sleeps) and then return. -/
theorem wait_poll_behavior_witness :
    waitLoop 5 (fun i => if i < 2 then ProbeOutcome.httpError 404 else ProbeOutcome.ok) =
      some (WaitExit.returned, pollEvents 2) :=
  (wait_poll_behavior (fun i => if i < 2 then ProbeOutcome.httpError 404 else ProbeOutcome.ok)
    2 5 (by omega) (fun i hi => by interval_cases i <;> rfl)).1 rfl

/-! ### Python `str.replace`

Text is embedded as `List Char`.  `str.replace(old, new)` scans left to
right: at each position, if `old` matches it is replaced by `new` and the
scan jumps past the match, otherwise one character is copied.  The scan is
written with fuel (`s.length` steps always suffice) so that it is a plain
structural recursion; `pyReplace` instantiates the fuel. -/

def replaceScan (p r : List Char) : Nat → List Char → List Char
| _, [] => []
| 0, s => s
| fuel + 1, c :: cs =>
  if p ≠ [] ∧ p.isPrefixOf (c :: cs) then
    r ++ replaceScan p r fuel (List.drop p.length (c :: cs))
  else
    c :: replaceScan p r fuel cs

/-- `s.replace(p, r)` for a non-empty pattern `p`.  (The sources only ever
replace non-empty absolute path strings and the non-empty placeholder
token, so the empty-pattern corner of Python's `replace` is irrelevant.) -/
def pyReplace (s p r : List Char) : List Char := replaceScan p r s.length s

theorem replaceScan_nil (p r : List Char) (fuel : Nat) :
    replaceScan p r fuel [] = [] := by
  cases fuel <;> rfl

theorem replaceScan_congr (p r : List Char) :
    ∀ (f₁ : Nat) (s : List Char) (f₂ : Nat), s.length ≤ f₁ → s.length ≤ f₂ →
      replaceScan p r f₁ s = replaceScan p r f₂ s := by
  intro f₁
  induction f₁ with
  | zero =>
    intro s f₂ h₁ _
    have hs : s = [] := List.eq_nil_of_length_eq_zero (Nat.le_zero.mp h₁)
    subst hs
    simp [replaceScan_nil]
  | succ f₁ ih =>
    intro s f₂ h₁ h₂
    cases s with
    | nil => simp [replaceScan_nil]
    | cons c cs =>
      obtain ⟨g, rfl⟩ : ∃ g, f₂ = g + 1 := ⟨f₂ - 1, by simp at h₂; omega⟩
      by_cases h : p ≠ [] ∧ p.isPrefixOf (c :: cs)
      · have hplen : 1 ≤ p.length := List.length_pos.mpr h.1
        simp only [replaceScan, if_pos h]
        congr 1
        apply ih
        · simp at h₁ ⊢; omega
        · simp at h₂ ⊢; omega
      · simp only [replaceScan, if_neg h]
        congr 1
        apply ih
        · simp at h₁ ⊢; omega
        · simp at h₂ ⊢; omega

theorem pyReplace_nil (p r : List Char) : pyReplace [] p r = [] := by
  simp [pyReplace, replaceScan_nil]

theorem pyReplace_cons (p r : List Char) (c : Char) (cs : List Char) :
    pyReplace (c :: cs) p r =
      if p ≠ [] ∧ p.isPrefixOf (c :: cs) then
        r ++ pyReplace (List.drop p.length (c :: cs)) p r
      else
        c :: pyReplace cs p r := by
  show replaceScan p r (cs.length + 1) (c :: cs) = _
  by_cases h : p ≠ [] ∧ p.isPrefixOf (c :: cs)
  · have hplen : 1 ≤ p.length := List.length_pos.mpr h.1
    simp only [replaceScan, if_pos h, pyReplace]
    congr 1
    apply replaceScan_congr
    · simp; omega
    · simp
  · simp only [replaceScan, if_neg h, pyReplace]

/-! ### Characterizing `replace` as split-then-join

`splitScan` is Python's `s.split(p)` under the same left-to-right scan; the
lemmas below show that `s.replace(p, r)` equals joining the `p`-separated
chunks of `s` with `r`, that joining them with `p` itself recovers `s`, and
that no chunk contains an occurrence of `p` — together: *every* occurrence
of `p` is replaced. -/

def splitScan (p : List Char) : Nat → List Char → List (List Char)
| _, [] => [[]]
| 0, s => [s]
| fuel + 1, c :: cs =>
  if p ≠ [] ∧ p.isPrefixOf (c :: cs) then
    [] :: splitScan p fuel (List.drop p.length (c :: cs))
  else
    match splitScan p fuel cs with
    | [] => [[c]]
    | chunk :: rest => (c :: chunk) :: rest

def pySplit (p s : List Char) : List (List Char) := splitScan p s.length s

def joinWith (sep : List Char) : List (List Char) → List Char
| [] => []
| [chunk] => chunk
| chunk :: rest => chunk ++ sep ++ joinWith sep rest

theorem splitScan_nil (p : List Char) (fuel : Nat) :
    splitScan p fuel [] = [[]] := by
  cases fuel <;> rfl

theorem splitScan_ne_nil (p : List Char) :
    ∀ (fuel : Nat) (s : List Char), splitScan p fuel s ≠ [] := by
  intro fuel
  induction fuel with
  | zero => intro s; cases s <;> simp [splitScan]
  | succ fuel ih =>
    intro s
    cases s with
    | nil => simp [splitScan_nil]
    | cons c cs =>
      by_cases h : p ≠ [] ∧ p.isPrefixOf (c :: cs)
      · simp only [splitScan]
        rw [if_pos h]
        simp
      · simp only [splitScan, if_neg h]
        rcases hsplit : splitScan p fuel cs with - | ⟨chunk, rest⟩ <;> simp

theorem splitScan_congr (p : List Char) :
    ∀ (f₁ : Nat) (s : List Char) (f₂ : Nat), s.length ≤ f₁ → s.length ≤ f₂ →
      splitScan p f₁ s = splitScan p f₂ s := by
  intro f₁
  induction f₁ with
  | zero =>
    intro s f₂ h₁ _
    have hs : s = [] := List.eq_nil_of_length_eq_zero (Nat.le_zero.mp h₁)
    subst hs
    simp [splitScan_nil]
  | succ f₁ ih =>
    intro s f₂ h₁ h₂
    cases s with
    | nil => simp [splitScan_nil]
    | cons c cs =>
      obtain ⟨g, rfl⟩ : ∃ g, f₂ = g + 1 := ⟨f₂ - 1, by simp at h₂; omega⟩
      by_cases h : p ≠ [] ∧ p.isPrefixOf (c :: cs)
      · have hplen : 1 ≤ p.length := List.length_pos.mpr h.1
        simp only [splitScan, if_pos h]
        congr 1
        apply ih
        · simp at h₁ ⊢; omega
        · simp at h₂ ⊢; omega
      · have harg : splitScan p f₁ cs = splitScan p g cs := by
          apply ih
          · simp at h₁ ⊢; omega
          · simp at h₂ ⊢; omega
        simp only [splitScan, if_neg h, harg]

theorem pySplit_nil (p : List Char) : pySplit p [] = [[]] := by
  simp [pySplit, splitScan_nil]

theorem pySplit_cons (p : List Char) (c : Char) (cs : List Char) :
    pySplit p (c :: cs) =
      if p ≠ [] ∧ p.isPrefixOf (c :: cs) then
        [] :: pySplit p (List.drop p.length (c :: cs))
      else
        match pySplit p cs with
        | [] => [[c]]
        | chunk :: rest => (c :: chunk) :: rest := by
  show splitScan p (cs.length + 1) (c :: cs) = _
  by_cases h : p ≠ [] ∧ p.isPrefixOf (c :: cs)
  · have hplen : 1 ≤ p.length := List.length_pos.mpr h.1
    simp only [splitScan, if_pos h]
    congr 1
    apply splitScan_congr
    · simp; omega
    · simp
  · have harg : splitScan p cs.length cs = pySplit p cs := rfl
    simp only [splitScan, if_neg h, harg]

theorem pySplit_ne_nil (p s : List Char) : pySplit p s ≠ [] :=
  splitScan_ne_nil p s.length s

theorem joinWith_cons_head (sep : List Char) (c : Char) (chunk : List Char)
    (rest : List (List Char)) :
    joinWith sep ((c :: chunk) :: rest) = c :: joinWith sep (chunk :: rest) := by
  cases rest with
  | nil => rfl
  | cons x xs => simp [joinWith]

theorem joinWith_nil_cons (sep x : List Char) (xs : List (List Char)) :
    joinWith sep ([] :: x :: xs) = sep ++ joinWith sep (x :: xs) := rfl

/-- `s.replace(p, r)` is: split `s` on `p`, join with `r`. -/
theorem pyReplace_eq_joinWith_pySplit (p r : List Char) :
    ∀ (n : Nat) (s : List Char), s.length ≤ n →
      pyReplace s p r = joinWith r (pySplit p s) := by
  intro n
  induction n with
  | zero =>
    intro s h
    have hs : s = [] := List.eq_nil_of_length_eq_zero (Nat.le_zero.mp h)
    subst hs
    simp [pyReplace_nil, pySplit_nil, joinWith]
  | succ n ih =>
    intro s h
    cases s with
    | nil => simp [pyReplace_nil, pySplit_nil, joinWith]
    | cons c cs =>
      rw [pyReplace_cons, pySplit_cons]
      by_cases hc : p ≠ [] ∧ p.isPrefixOf (c :: cs)
      · have hplen : 1 ≤ p.length := List.length_pos.mpr hc.1
        rw [if_pos hc, if_pos hc]
        obtain ⟨chunk, rest, hsplit⟩ :
            ∃ chunk rest, pySplit p (List.drop p.length (c :: cs)) = chunk :: rest := by
          rcases hs : pySplit p (List.drop p.length (c :: cs)) with - | ⟨chunk, rest⟩
          · exact absurd hs (pySplit_ne_nil p _)
          · exact ⟨chunk, rest, rfl⟩
        have hih := ih (List.drop p.length (c :: cs)) (by simp at h ⊢; omega)
        rw [hih, hsplit]
        cases rest with
        | nil => simp [joinWith]
        | cons x xs => simp [joinWith]
      · rw [if_neg hc, if_neg hc]
        obtain ⟨chunk, rest, hsplit⟩ :
            ∃ chunk rest, pySplit p cs = chunk :: rest := by
          rcases hs : pySplit p cs with - | ⟨chunk, rest⟩
          · exact absurd hs (pySplit_ne_nil p _)
          · exact ⟨chunk, rest, rfl⟩
        have hih := ih cs (by simp at h ⊢; omega)
        rw [hih, hsplit, joinWith_cons_head]

/-- Joining the chunks with the pattern itself recovers the original text. -/
theorem joinWith_pySplit_self (p : List Char) :
    ∀ (n : Nat) (s : List Char), s.length ≤ n →
      joinWith p (pySplit p s) = s := by
  intro n
  induction n with
  | zero =>
    intro s h
    have hs : s = [] := List.eq_nil_of_length_eq_zero (Nat.le_zero.mp h)
    subst hs
    simp [pySplit_nil, joinWith]
  | succ n ih =>
    intro s h
    cases s with
    | nil => simp [pySplit_nil, joinWith]
    | cons c cs =>
      rw [pySplit_cons]
      by_cases hc : p ≠ [] ∧ p.isPrefixOf (c :: cs)
      · have hplen : 1 ≤ p.length := List.length_pos.mpr hc.1
        have hpre : p <+: c :: cs := List.isPrefixOf_iff_prefix.mp hc.2
        rw [if_pos hc]
        obtain ⟨chunk, rest, hsplit⟩ :
            ∃ chunk rest, pySplit p (List.drop p.length (c :: cs)) = chunk :: rest := by
          rcases hs : pySplit p (List.drop p.length (c :: cs)) with - | ⟨chunk, rest⟩
          · exact absurd hs (pySplit_ne_nil p _)
          · exact ⟨chunk, rest, rfl⟩
        have hih := ih (List.drop p.length (c :: cs)) (by simp at h ⊢; omega)
        rw [hsplit] at hih
        rw [hsplit, joinWith_nil_cons, hih]
        have htake : p = List.take p.length (c :: cs) := List.prefix_iff_eq_take.mp hpre
        conv_rhs => rw [← List.take_append_drop p.length (c :: cs)]
        rw [← htake]
      · rw [if_neg hc]
        obtain ⟨chunk, rest, hsplit⟩ :
            ∃ chunk rest, pySplit p cs = chunk :: rest := by
          rcases hs : pySplit p cs with - | ⟨chunk, rest⟩
          · exact absurd hs (pySplit_ne_nil p _)
          · exact ⟨chunk, rest, rfl⟩
        have hih := ih cs (by simp at h ⊢; omega)
        rw [hsplit] at hih
        rw [hsplit, joinWith_cons_head, hih]

/-- The head chunk of a split is a prefix of the original text. -/
theorem pySplit_head_prefix (p : List Char) :
    ∀ (n : Nat) (s chunk : List Char) (rest : List (List Char)),
      s.length ≤ n → pySplit p s = chunk :: rest → chunk <+: s := by
  intro n
  induction n with
  | zero =>
    intro s chunk rest h hsplit
    have hs : s = [] := List.eq_nil_of_length_eq_zero (Nat.le_zero.mp h)
    subst hs
    rw [pySplit_nil] at hsplit
    cases hsplit
    exact List.nil_prefix
  | succ n ih =>
    intro s chunk rest h hsplit
    cases s with
    | nil =>
      rw [pySplit_nil] at hsplit
      cases hsplit
      exact List.nil_prefix
    | cons c cs =>
      rw [pySplit_cons] at hsplit
      by_cases hc : p ≠ [] ∧ p.isPrefixOf (c :: cs)
      · rw [if_pos hc] at hsplit
        cases hsplit
        exact List.nil_prefix
      · rw [if_neg hc] at hsplit
        obtain ⟨chunk₀, rest₀, hsplit₀⟩ :
            ∃ chunk₀ rest₀, pySplit p cs = chunk₀ :: rest₀ := by
          rcases hs : pySplit p cs with - | ⟨chunk₀, rest₀⟩
          · exact absurd hs (pySplit_ne_nil p _)
          · exact ⟨chunk₀, rest₀, rfl⟩
        rw [hsplit₀] at hsplit
        cases hsplit
        exact List.cons_prefix_cons.mpr
          ⟨rfl, ih cs chunk₀ _ (by simp at h ⊢; omega) hsplit₀⟩

/-- No chunk of the split contains an occurrence of the (non-empty)
pattern: after replacement, every occurrence of the pattern is gone from
the chunks. -/
theorem pySplit_chunk_not_infix (p : List Char) (hp : p ≠ []) :
    ∀ (n : Nat) (s : List Char), s.length ≤ n →
      ∀ chunk ∈ pySplit p s, ¬ p <:+: chunk := by
  intro n
  induction n with
  | zero =>
    intro s h chunk hmem
    have hs : s = [] := List.eq_nil_of_length_eq_zero (Nat.le_zero.mp h)
    subst hs
    rw [pySplit_nil] at hmem
    simp at hmem
    subst hmem
    intro hinf
    exact hp (List.eq_nil_of_infix_nil hinf)
  | succ n ih =>
    intro s h chunk hmem
    cases s with
    | nil =>
      rw [pySplit_nil] at hmem
      simp at hmem
      subst hmem
      intro hinf
      exact hp (List.eq_nil_of_infix_nil hinf)
    | cons c cs =>
      rw [pySplit_cons] at hmem
      by_cases hc : p ≠ [] ∧ p.isPrefixOf (c :: cs)
      · rw [if_pos hc] at hmem
        rcases List.mem_cons.mp hmem with hchunk | hchunk
        · subst hchunk
          intro hinf
          exact hp (List.eq_nil_of_infix_nil hinf)
        · exact ih (List.drop p.length (c :: cs))
            (by have := List.length_pos.mpr hc.1; simp at h ⊢; omega) chunk hchunk
      · rw [if_neg hc] at hmem
        obtain ⟨chunk₀, rest₀, hsplit₀⟩ :
            ∃ chunk₀ rest₀, pySplit p cs = chunk₀ :: rest₀ := by
          rcases hs : pySplit p cs with - | ⟨chunk₀, rest₀⟩
          · exact absurd hs (pySplit_ne_nil p _)
          · exact ⟨chunk₀, rest₀, rfl⟩
        rw [hsplit₀] at hmem
        rcases List.mem_cons.mp hmem with hchunk | hchunk
        · subst hchunk
          intro hinf
          rcases List.infix_cons_iff.mp hinf with hpre | hinf₀
          · have hch : chunk₀ <+: cs :=
              pySplit_head_prefix p n cs chunk₀ rest₀ (by simp at h ⊢; omega) hsplit₀
            have : p <+: c :: cs :=
              hpre.trans (List.cons_prefix_cons.mpr ⟨rfl, hch⟩)
            exact hc ⟨hp, List.isPrefixOf_iff_prefix.mpr this⟩
          · exact ih cs (by simp at h ⊢; omega) chunk₀
              (by rw [hsplit₀]; exact List.mem_cons_self _ _) hinf₀
        · exact ih cs (by simp at h ⊢; omega) chunk
            (by rw [hsplit₀]; exact List.mem_cons_of_mem _ hchunk)

/-! ### Staging path rewrite and deploy-time substitution

`Builder._adjust_files_containing_hardcoded_paths` walks the staged bundle
and, for each regular file that decodes as UTF-8, replaces every install
prefix with a placeholder token (`"$\x7bfrida_sdk_prefix\x7d"` for `.pc`
files, `"@FRIDA_TOOLROOT@"` otherwise) and renames modified non-`.pc` files
with a `.frida.in` suffix.  `sync` later substitutes the deploy location for
`"@FRIDA_TOOLROOT@"` in `*.frida.in` files. -/

def toolrootToken : List Char := "@FRIDA_TOOLROOT@".toList

def toolrootTail : List Char := "FRIDA_TOOLROOT@".toList

def sdkPrefixToken : List Char := "$\x7bfrida_sdk_prefix\x7d".toList

theorem toolrootToken_eq : toolrootToken = '@' :: toolrootTail := by decide

/-- Scanning a text that starts with the token replaces the token first. -/
theorem pyReplace_token_at_head (pfx l : List Char) :
    pyReplace (toolrootToken ++ l) toolrootToken pfx =
      pfx ++ pyReplace l toolrootToken pfx := by
  rw [toolrootToken_eq, List.cons_append, pyReplace_cons]
  have hcond : ('@' :: toolrootTail) ≠ [] ∧
      ('@' :: toolrootTail).isPrefixOf ('@' :: (toolrootTail ++ l)) := by
    refine ⟨by simp, List.isPrefixOf_iff_prefix.mpr ?_⟩
    rw [← List.cons_append]
    exact List.prefix_append _ _
  rw [if_pos hcond]
  have hdrop : List.drop ('@' :: toolrootTail).length ('@' :: (toolrootTail ++ l)) = l := by
    rw [← List.cons_append, List.drop_left]
  rw [hdrop]

/-- Scanning a text whose head is not `'@'` copies the head unchanged. -/
theorem pyReplace_token_not_at_head (pfx : List Char) (c : Char) (hcne : c ≠ '@')
    (l : List Char) :
    pyReplace (c :: l) toolrootToken pfx = c :: pyReplace l toolrootToken pfx := by
  rw [pyReplace_cons, if_neg]
  rintro ⟨-, hpre⟩
  have hpre' := List.isPrefixOf_iff_prefix.mp hpre
  rw [toolrootToken_eq] at hpre'
  exact hcne (List.cons_prefix_cons.mp hpre').1.symm

theorem roundtrip_aux (pfx : List Char) :
    ∀ (n : Nat) (s : List Char), s.length ≤ n → '@' ∉ s →
      pyReplace (pyReplace s pfx toolrootToken) toolrootToken pfx = s := by
  intro n
  induction n with
  | zero =>
    intro s h _
    have hs : s = [] := List.eq_nil_of_length_eq_zero (Nat.le_zero.mp h)
    subst hs
    simp [pyReplace_nil]
  | succ n ih =>
    intro s h hat
    cases s with
    | nil => simp [pyReplace_nil]
    | cons c cs =>
      rw [pyReplace_cons]
      by_cases hc : pfx ≠ [] ∧ pfx.isPrefixOf (c :: cs)
      · rw [if_pos hc]
        have hplen : 1 ≤ pfx.length := List.length_pos.mpr hc.1
        rw [pyReplace_token_at_head]
        have hat' : '@' ∉ List.drop pfx.length (c :: cs) :=
          fun hmem => hat (List.mem_of_mem_drop hmem)
        have hlen : (List.drop pfx.length (c :: cs)).length ≤ n := by
          simp at h ⊢; omega
        rw [ih _ hlen hat']
        have hpre : pfx <+: c :: cs := List.isPrefixOf_iff_prefix.mp hc.2
        conv_rhs => rw [← List.take_append_drop pfx.length (c :: cs)]
        rw [← List.prefix_iff_eq_take.mp hpre]
      · rw [if_neg hc]
        have hcne : c ≠ '@' := by
          intro hcq
          exact hat (by simp [hcq])
        rw [pyReplace_token_not_at_head pfx c hcne]
        have hat' : '@' ∉ cs := fun hm => hat (List.mem_cons_of_mem _ hm)
        rw [ih cs (by simp at h; omega) hat']

/-- C7 counterexample: a text file whose content is the install prefix
`"/w"` followed by the literal token `"@FRIDA_TOOLROOT@"`.  Staging rewrites
it (so the file is affected), but deploy-time substitution with `"/w"` as
the target location yields `"/w/w"` rather than the original bytes: the
staging rewrite followed by deploy substitution is not the identity. -/
theorem stage_deploy_roundtrip_counterexample :
    pyReplace (pyReplace ("/w".toList ++ toolrootToken) "/w".toList toolrootToken)
        toolrootToken "/w".toList ≠ "/w".toList ++ toolrootToken ∧
    pyReplace ("/w".toList ++ toolrootToken) "/w".toList toolrootToken ≠
      "/w".toList ++ toolrootToken := by
  decide

/-- C7 (amended): for every text file affected by staging's path rewriting
whose original content contains no `'@'` character (hence, in particular, no
occurrence of the placeholder token), performing the deploy-time
substitution on the staged result with the original absolute install prefix
as the target location reproduces byte-identical content.  (Unrestricted,
the round trip fails — see the counterexample — and `.pc` files are not
substituted at deploy time at all since they are not renamed `.frida.in`.) -/
theorem stage_deploy_roundtrip (pfx s : List Char) (hat : '@' ∉ s) :
    pyReplace (pyReplace s pfx toolrootToken) toolrootToken pfx = s :=
  roundtrip_aux pfx s.length s le_rfl hat

/-- C7 witness: a concrete affected file round-trips. -/
theorem stage_deploy_roundtrip_witness :
    pyReplace (pyReplace "/w/lib/z.pc text /w/lib".toList "/w".toList toolrootToken)
        toolrootToken "/w".toList = "/w/lib/z.pc text /w/lib".toList :=
  stage_deploy_roundtrip "/w".toList "/w/lib/z.pc text /w/lib".toList (by decide)

/-- Index of the last `'.'` in a character list, if any. -/
def rfindDot : List Char → Option Nat
| [] => none
| c :: cs =>
  match rfindDot cs with
  | some i => some (i + 1)
  | none => if c = '.' then some 0 else none

/-- `pathlib.PurePath(name).suffix`: the extension from the last dot,
unless that dot is the first or last character of the name. -/
def pySuffix (name : List Char) : List Char :=
  match rfindDot name with
  | none => []
  | some i => if 0 < i ∧ i + 1 < name.length then List.drop i name else []

/-- A staged file's content: either UTF-8 text, or bytes whose decoding
raises `UnicodeDecodeError`. -/
inductive FileContent
| text (chars : List Char)
| binary
deriving DecidableEq

/-- One regular directory entry visited by the staging walk. -/
structure StagedFile where
  filename : List Char
  isSymlink : Bool
  content : FileContent
deriving DecidableEq

def fridaInSuffix : List Char := ".frida.in".toList

/-- The per-file body of `Builder._adjust_files_containing_hardcoded_paths`:
skip symlinks; try to decode as UTF-8 (failure is skipped); replace each
install prefix with the placeholder token (the package-config token for
`.pc` files, the toolroot token otherwise); if modified, write back and —
for non-`.pc` files — rename to `<filename>.frida.in`. -/
def adjustFileContainingHardcodedPaths (prefixes : List (List Char))
    (f : StagedFile) : StagedFile :=
  if f.isSymlink then f
  else
    match f.content with
    | .binary => f
    | .text text =>
      let is_pcfile := pySuffix f.filename = ".pc".toList
      let replacement := if is_pcfile then sdkPrefixToken else toolrootToken
      let new_text := prefixes.foldl (fun acc pfx => pyReplace acc pfx replacement) text
      if new_text ≠ text then
        if is_pcfile then
          { filename := f.filename, isSymlink := f.isSymlink,
            content := FileContent.text new_text }
        else
          { filename := f.filename ++ fridaInSuffix, isSymlink := f.isSymlink,
            content := FileContent.text new_text }
      else f

/-- Folding the raw replacement scan over the prefixes equals folding the
split-then-join description over them. -/
theorem foldl_pyReplace_eq (repl : List Char) :
    ∀ (prefixes : List (List Char)) (text : List Char),
      prefixes.foldl (fun acc pfx => pyReplace acc pfx repl) text =
        prefixes.foldl (fun acc pfx => joinWith repl (pySplit pfx acc)) text := by
  intro prefixes
  induction prefixes with
  | nil => intro text; rfl
  | cons p ps ih =>
    intro text
    simp only [List.foldl_cons]
    rw [pyReplace_eq_joinWith_pySplit p repl text.length text le_rfl]
    exact ih _

/-- C6: staging's per-file rewrite leaves symbolic links untouched, skips
files that cannot be decoded as UTF-8 without error, and for text files
replaces every occurrence of each session install prefix (the content
becomes the prefix-separated chunks joined with the placeholder token —
`pySplit`/`joinWith` — so all occurrences are replaced) using the
package-config token for `.pc` files and the toolroot token otherwise;
a modified `.pc` file keeps its name, any other modified file is renamed
with the `.frida.in` template suffix, and unmodified files are untouched. -/
theorem adjust_file_spec (prefixes : List (List Char)) (f : StagedFile)
    (text repl newText : List Char)
    (hrepl : repl = (if pySuffix f.filename = ".pc".toList then sdkPrefixToken
                     else toolrootToken))
    (hnew : newText = prefixes.foldl (fun acc pfx => joinWith repl (pySplit pfx acc)) text) :
    (f.isSymlink = true → adjustFileContainingHardcodedPaths prefixes f = f) ∧
    (f.content = FileContent.binary →
      adjustFileContainingHardcodedPaths prefixes f = f) ∧
    (f.isSymlink = false → f.content = FileContent.text text →
      ((newText ≠ text ∧ pySuffix f.filename = ".pc".toList →
          adjustFileContainingHardcodedPaths prefixes f =
            { filename := f.filename, isSymlink := f.isSymlink,
              content := FileContent.text newText }) ∧
       (newText ≠ text ∧ pySuffix f.filename ≠ ".pc".toList →
          adjustFileContainingHardcodedPaths prefixes f =
            { filename := f.filename ++ fridaInSuffix, isSymlink := f.isSymlink,
              content := FileContent.text newText }) ∧
       (newText = text → adjustFileContainingHardcodedPaths prefixes f = f))) := by
  refine ⟨?_, ?_, ?_⟩
  · intro hsym
    simp [adjustFileContainingHardcodedPaths, hsym]
  · intro hbin
    cases hf : f.isSymlink <;>
      simp [adjustFileContainingHardcodedPaths, hf, hbin]
  · intro hsym hcontent
    have hfold : prefixes.foldl (fun acc pfx => pyReplace acc pfx repl) text = newText := by
      rw [hnew, foldl_pyReplace_eq]
    refine ⟨?_, ?_, ?_⟩
    · rintro ⟨hne, hpc⟩
      have hrepl' : repl = sdkPrefixToken := by rw [hrepl, if_pos hpc]
      have hfold1 := hrepl' ▸ hfold
      simp only [adjustFileContainingHardcodedPaths, hsym, Bool.false_eq_true,
        if_false, hcontent]
      rw [if_pos hpc, if_pos hpc, hfold1, if_pos hne]
    · rintro ⟨hne, hpc⟩
      have hrepl' : repl = toolrootToken := by rw [hrepl, if_neg hpc]
      have hfold1 := hrepl' ▸ hfold
      simp only [adjustFileContainingHardcodedPaths, hsym, Bool.false_eq_true,
        if_false, hcontent]
      rw [if_neg hpc, if_neg hpc, hfold1, if_pos hne]
    · intro heq
      simp only [adjustFileContainingHardcodedPaths, hsym, Bool.false_eq_true,
        if_false, hcontent]
      by_cases hpc : pySuffix f.filename = ".pc".toList
      · have hrepl' : repl = sdkPrefixToken := by rw [hrepl, if_pos hpc]
        have hfold1 := hrepl' ▸ hfold
        rw [if_pos hpc, if_pos hpc, hfold1,
          if_neg (show ¬ newText ≠ text by simp [heq])]
      · have hrepl' : repl = toolrootToken := by rw [hrepl, if_neg hpc]
        have hfold1 := hrepl' ▸ hfold
        rw [if_neg hpc, if_neg hpc, hfold1,
          if_neg (show ¬ newText ≠ text by simp [heq])]

/-- C6 witness: a concrete package-config file containing the prefix is
rewritten in place with the package-config token and keeps its name. -/
theorem adjust_file_spec_witness :
    adjustFileContainingHardcodedPaths ["/w".toList]
      { filename := "z.pc".toList, isSymlink := false,
        content := FileContent.text "p=/w/lib".toList } =
      { filename := "z.pc".toList, isSymlink := false,
        content := FileContent.text ("p=".toList ++ sdkPrefixToken ++ "/lib".toList) } := by
  have h := (adjust_file_spec ["/w".toList]
    { filename := "z.pc".toList, isSymlink := false,
      content := FileContent.text "p=/w/lib".toList }
    "p=/w/lib".toList sdkPrefixToken
    ("p=".toList ++ sdkPrefixToken ++ "/lib".toList)
    (by decide) (by decide)).2.2 rfl rfl
  exact h.1 ⟨by decide, by decide⟩

/-! ### The build executor

`Builder._prepare`, `Builder._grab_and_prepare`, `Builder._wipe_build_state`,
`Builder._build_package` and `Builder._build_package_for_runtime` are embedded
as state-passing functions over `BuildState` (the manifest files under the
output directory, the only persistent build-completion markers) together with
an effect trace.  External collaborators are oracles: `SyncOracle` answers
what git finds on disk, `MesonOracle` gives each meson invocation's exit code
and captured stdout.  A `Bool` result distinguishes normal completion from a
raised `CalledProcessError`/parse error (fail-fast, aborting the session). -/

/-- Generic association-list lookup, Python `dict[key]` access order. -/
def alookup {α β : Type} [DecidableEq α] (k : α) : List (α × β) → Option β
| [] => none
| (k', v) :: rest => if k = k' then some v else alookup k rest

theorem alookup_append {α β : Type} [DecidableEq α] (k : α) :
    ∀ (l₁ l₂ : List (α × β)),
      alookup k (l₁ ++ l₂) =
        match alookup k l₁ with
        | some v => some v
        | none => alookup k l₂ := by
  intro l₁ l₂
  induction l₁ with
  | nil => simp [alookup]
  | cons kv rest ih =>
    by_cases hk : k = kv.1
    · simp [alookup, hk]
    · simp only [List.cons_append, alookup, if_neg hk]
      exact ih

/-- The three meson invocations made per (package, runtime) build. -/
inductive MesonPhase
| setup
| install
| introspect
deriving DecidableEq

/-- Externally observable side effects of the orchestration engine. -/
inductive Effect
| gitFetch (pkg : String)
| gitCheckout (pkg : String)
| gitCloneRecurseSubmodules (pkg : String)
| wipeBuildState
| meson (pkg runtime : String) (phase : MesonPhase)
| writeManifest (pkg runtime : String)
deriving DecidableEq

/-- The persistent build outputs: the manifest files under
`<outdir>/<output-id>/manifest/<pkg>.pkg`, keyed by (package identifier,
runtime variant), each holding its sorted list of installed files. -/
structure BuildState where
  manifests : List ((String × String) × List String)
deriving DecidableEq

def manifestExists (st : BuildState) (pkg runtime : String) : Bool :=
  (alookup (pkg, runtime) st.manifests).isSome

/-- What git finds on disk: whether a package's source directory exists and,
if so, which revision `git rev-parse HEAD` reports.  The git subprocesses
themselves run with `check=True`; this model covers the sessions in which
they succeed. -/
structure SyncOracle where
  sourcedirExists : String → Bool
  gitHead : String → String

/-- `Builder._grab_and_prepare`: an existing checkout at the pinned version
is `PRISTINE`; an existing checkout at another revision is fetched and
checked out, `MODIFIED`; a missing checkout is cloned recursively
(`git clone --recurse-submodules`) and checked out at the pinned version,
`PRISTINE`. -/
def grab_and_prepare (o : SyncOracle) (pkg : PackageSpec) :
    SourceState × List Effect :=
  if o.sourcedirExists pkg.identifier then
    if o.gitHead pkg.identifier = pkg.version then
      (SourceState.pristine, [])
    else
      (SourceState.modified,
       [Effect.gitFetch pkg.identifier, Effect.gitCheckout pkg.identifier])
  else
    (SourceState.pristine,
     [Effect.gitCloneRecurseSubmodules pkg.identifier,
      Effect.gitCheckout pkg.identifier])

/-- `Builder._wipe_build_state`: `shutil.rmtree` of the output directory and
the build-scratch container; every manifest lives under the output
directory, so all completion markers are gone afterwards. -/
def wipe_build_state (_st : BuildState) : BuildState :=
  { manifests := [] }

/-- The per-package half of `Builder._prepare`: sync each package and wipe
the whole build state whenever a sync reports `MODIFIED`. -/
def prepareLoop (o : SyncOracle) : List PackageSpec → BuildState →
    BuildState × List Effect
| [], st => (st, [])
| pkg :: rest, st =>
  let g := grab_and_prepare o pkg
  let step : BuildState × List Effect :=
    if g.1 = SourceState.modified then
      (wipe_build_state st, g.2 ++ [Effect.wipeBuildState])
    else
      (st, g.2)
  let next := prepareLoop o rest step.1
  (next.1, step.2 ++ next.2)

/-- `Builder._prepare`: sync every selected package, then ensure the
bootstrap toolchain.  `ensure_toolchain` lives in `releng/env.py`, outside
these sources; modelled from the spec: it downloads/refreshes the bootstrap
toolchain and reports whether it changed, here the `toolchainState` input.
A modified toolchain wipes the build state exactly like a modified package.
(The subsequent machine-file generation writes no manifests.) -/
def prepare (o : SyncOracle) (toolchainState : SourceState)
    (packages : List PackageSpec) (st : BuildState) :
    BuildState × List Effect :=
  let looped := prepareLoop o packages st
  if toolchainState = SourceState.modified then
    (wipe_build_state looped.1, looped.2 ++ [Effect.wipeBuildState])
  else
    looped

/-- `vscrt_from_configuration_and_runtime`. -/
def vscrt_from_configuration_and_runtime (config runtime : String) : String :=
  let result := if runtime = "dynamic" then "md" else "mt"
  if config = "debug" then result ++ "d" else result

/-- Exit code and captured stdout of one meson invocation. -/
structure MesonResult where
  returncode : Nat
  stdout : List Char

/-- The external build tool as an oracle: result of the setup / install /
introspect invocation for a given (package, runtime). -/
structure MesonOracle where
  result : String → String → MesonPhase → MesonResult

/-! Parsing `meson introspect --installed` output: the source runs
`json.loads(...).values()` on the captured stdout.  The output is a flat
JSON object mapping strings to installed-path strings; `json.loads` is the
Python standard library (external), modelled here for flat string-to-string
objects without escape sequences (stdout that does not have this shape makes
`json.loads` — or the subsequent `.values()` access — raise, which aborts
the session before any manifest is written). -/

def isJsonWs (c : Char) : Bool :=
  c = ' ' ∨ c = '\n' ∨ c = '\t' ∨ c = '\r'

def skipWs : List Char → List Char
| [] => []
| c :: cs => if isJsonWs c then skipWs cs else c :: cs

def parseJsonStringBody : List Char → Option (List Char × List Char)
| [] => none
| c :: cs =>
  if c = '"' then some ([], cs)
  else if c = '\\' then none
  else
    match parseJsonStringBody cs with
    | none => none
    | some (s, rest) => some (c :: s, rest)

def parseJsonString : List Char → Option (List Char × List Char)
| '"' :: cs => parseJsonStringBody cs
| _ => none

def parseJsonPairs : Nat → List Char → Option (List (List Char) × List Char)
| 0, _ => none
| fuel + 1, s =>
  match parseJsonString (skipWs s) with
  | none => none
  | some (_, rest1) =>
    match skipWs rest1 with
    | ':' :: rest2 =>
      match parseJsonString (skipWs rest2) with
      | none => none
      | some (v, rest3) =>
        match skipWs rest3 with
        | ',' :: rest4 =>
          (match parseJsonPairs fuel rest4 with
           | none => none
           | some (vs, rest5) => some (v :: vs, rest5))
        | '}' :: rest4 => some ([v], rest4)
        | _ => none
    | _ => none

def jsonObjectValues (s : List Char) : Option (List (List Char)) :=
  match skipWs s with
  | '{' :: rest =>
    match skipWs rest with
    | '}' :: rest2 => if (skipWs rest2).isEmpty then some [] else none
    | _ =>
      match parseJsonPairs s.length rest with
      | none => none
      | some (vs, rest2) => if (skipWs rest2).isEmpty then some vs else none
  | _ => none

/-- `pathlib.Path(p).relative_to(pfxPath)` for the shapes arising here:
an absolute installed path strictly below the absolute install prefix.
Any other shape raises `ValueError`. -/
def pathRelativeTo (p pfxPath : String) : Option String :=
  if (pfxPath ++ "/").isPrefixOf p then some (p.drop (pfxPath.length + 1))
  else none

/-- The per-session builder configuration read by the build executor:
requested bundle, host machine, and the `<cachedir>/src` working directory
set up in `Builder.__init__`. -/
structure BuilderConfig where
  bundle : Bundle
  hostMachine : MachineSpec
  workdir : String

/-- `Builder.__init__`: one runtime (`"static"`) everywhere except Windows
SDK builds, which add `"dynamic"`. -/
def builderRuntimes (cfg : BuilderConfig) : List String :=
  if cfg.hostMachine.os = "windows" ∧ cfg.bundle = Bundle.sdk then
    ["static", "dynamic"]
  else
    ["static"]

/-- `Builder._compute_output_id`. -/
def compute_output_id (cfg : BuilderConfig) (runtime : String) : String :=
  if cfg.hostMachine.os = "windows" then
    cfg.hostMachine.identifier ++ "-" ++ runtime
  else
    cfg.hostMachine.identifier

/-- `Builder._get_outdir`. -/
def get_outdir (cfg : BuilderConfig) : String :=
  cfg.workdir ++ "/_" ++ bundleNameLower cfg.bundle ++ ".out"

/-- `Builder._get_prefix`. -/
def get_prefix (cfg : BuilderConfig) (runtime : String) : String :=
  get_outdir cfg ++ "/" ++ compute_output_id cfg runtime

/-- `Builder._build_package_for_runtime`: meson `setup` and `install` run
with `check=True` (a non-zero exit raises `CalledProcessError`); the
`introspect --installed` invocation is made *without* `check=True`, its exit
status is never examined, and its captured stdout goes straight into
`json.loads`.  The manifest — the sorted installed paths relative to the
prefix — is written as the final step, and only on the path where nothing
raised. -/
def build_package_for_runtime (cfg : BuilderConfig) (o : MesonOracle)
    (pkg : PackageSpec) (runtime : String) (st : BuildState) :
    BuildState × List Effect × Bool :=
  let pfxPath := get_prefix cfg runtime
  let r1 := o.result pkg.identifier runtime MesonPhase.setup
  if r1.returncode ≠ 0 then
    (st, [Effect.meson pkg.identifier runtime MesonPhase.setup], false)
  else
    let r2 := o.result pkg.identifier runtime MesonPhase.install
    if r2.returncode ≠ 0 then
      (st, [Effect.meson pkg.identifier runtime MesonPhase.setup,
            Effect.meson pkg.identifier runtime MesonPhase.install], false)
    else
      let r3 := o.result pkg.identifier runtime MesonPhase.introspect
      let ran := [Effect.meson pkg.identifier runtime MesonPhase.setup,
                  Effect.meson pkg.identifier runtime MesonPhase.install,
                  Effect.meson pkg.identifier runtime MesonPhase.introspect]
      match jsonObjectValues r3.stdout with
      | none => (st, ran, false)
      | some installedPaths =>
        match installedPaths.mapM
            (fun p => pathRelativeTo (String.mk p) pfxPath) with
        | none => (st, ran, false)
        | some rels =>
          let manifest_lines := rels.mergeSort (fun a b => decide (a ≤ b))
          ({ manifests := st.manifests ++
               [((pkg.identifier, runtime), manifest_lines)] },
           ran ++ [Effect.writeManifest pkg.identifier runtime], true)

/-- `Builder._build_package`: for each runtime variant in order, skip the
variant whenever its manifest file already exists, otherwise run the full
build for it; a raise aborts immediately. -/
def build_package (cfg : BuilderConfig) (o : MesonOracle) (pkg : PackageSpec) :
    List String → BuildState → BuildState × List Effect × Bool
| [], st => (st, [], true)
| rt :: rest, st =>
  if manifestExists st pkg.identifier rt then
    build_package cfg o pkg rest st
  else
    let r := build_package_for_runtime cfg o pkg rt st
    if r.2.2 then
      let next := build_package cfg o pkg rest r.1
      (next.1, r.2.1 ++ next.2.1, next.2.2)
    else
      r

/-- The `for pkg in packages: self._build_package(pkg)` loop of
`Builder.build`, fail-fast on a raise. -/
def build_packages (cfg : BuilderConfig) (o : MesonOracle) :
    List PackageSpec → BuildState → BuildState × List Effect × Bool
| [], st => (st, [], true)
| pkg :: rest, st =>
  let r := build_package cfg o pkg (builderRuntimes cfg) st
  if r.2.2 then
    let next := build_packages cfg o rest r.1
    (next.1, r.2.1 ++ next.2.1, next.2.2)
  else
    r

/-- A per-runtime build either raises leaving the state untouched, or runs
to completion having appended exactly its own manifest, with `setup` and
`install` both having exited zero and the `setup` invocation in its trace. -/
theorem bpfr_cases (cfg : BuilderConfig) (o : MesonOracle) (pkg : PackageSpec)
    (rt : String) (st : BuildState) :
    ((build_package_for_runtime cfg o pkg rt st).1 = st ∧
      (build_package_for_runtime cfg o pkg rt st).2.2 = false) ∨
    (∃ rels,
      (build_package_for_runtime cfg o pkg rt st).1 =
        { manifests := st.manifests ++ [((pkg.identifier, rt), rels)] } ∧
      (build_package_for_runtime cfg o pkg rt st).2.2 = true ∧
      (o.result pkg.identifier rt MesonPhase.setup).returncode = 0 ∧
      (o.result pkg.identifier rt MesonPhase.install).returncode = 0 ∧
      Effect.meson pkg.identifier rt MesonPhase.setup ∈
        (build_package_for_runtime cfg o pkg rt st).2.1) := by
  simp only [build_package_for_runtime]
  split_ifs with h1 h2
  · exact Or.inl ⟨rfl, rfl⟩
  · exact Or.inl ⟨rfl, rfl⟩
  · split
    · exact Or.inl ⟨rfl, rfl⟩
    · split
      · exact Or.inl ⟨rfl, rfl⟩
      · exact Or.inr ⟨_, rfl, rfl, by omega, by omega, by simp⟩

/-- Manifests already present survive a per-runtime build (the build only
appends its own manifest). -/
theorem bpfr_mono (cfg : BuilderConfig) (o : MesonOracle) (pkg : PackageSpec)
    (rt : String) (st : BuildState) (k r : String)
    (h : manifestExists st k r = true) :
    manifestExists (build_package_for_runtime cfg o pkg rt st).1 k r = true := by
  obtain ⟨v, hv⟩ : ∃ v, alookup (k, r) st.manifests = some v := by
    rcases hl : alookup (k, r) st.manifests with - | v
    · simp [manifestExists, hl] at h
    · exact ⟨v, rfl⟩
  rcases bpfr_cases cfg o pkg rt st with ⟨hst, -⟩ | ⟨rels, hst, -⟩
  · rw [hst]
    exact h
  · rw [hst]
    simp [manifestExists, alookup_append, hv]

/-- A manifest present after a per-runtime build was either present before,
or was written by this very build — in which case the build's trace contains
its meson `setup` invocation for exactly that (package, runtime). -/
theorem bpfr_manifest_source (cfg : BuilderConfig) (o : MesonOracle)
    (pkg : PackageSpec) (rt : String) (st : BuildState) (k r : String)
    (h : manifestExists (build_package_for_runtime cfg o pkg rt st).1 k r = true) :
    manifestExists st k r = true ∨
      Effect.meson k r MesonPhase.setup ∈
        (build_package_for_runtime cfg o pkg rt st).2.1 := by
  rcases bpfr_cases cfg o pkg rt st with ⟨hst, -⟩ | ⟨rels, hst, -, -, -, hsetup⟩
  · rw [hst] at h
    exact Or.inl h
  · rw [hst] at h
    simp only [manifestExists, alookup_append] at h
    rcases hl : alookup (k, r) st.manifests with - | v
    · rw [hl] at h
      simp only [alookup] at h
      by_cases hkr : (k, r) = (pkg.identifier, rt)
      · simp only [Prod.mk.injEq] at hkr
        right
        rw [hkr.1, hkr.2]
        exact hsetup
      · rw [if_neg hkr] at h
        simp [alookup] at h
    · exact Or.inl (by simp [manifestExists, hl])

/-- Every effect of a per-runtime build is a meson invocation or the
manifest write for exactly that (package, runtime) pair. -/
theorem bpfr_trace_shape (cfg : BuilderConfig) (o : MesonOracle)
    (pkg : PackageSpec) (rt : String) (st : BuildState) :
    ∀ e ∈ (build_package_for_runtime cfg o pkg rt st).2.1,
      (∃ ph, e = Effect.meson pkg.identifier rt ph) ∨
        e = Effect.writeManifest pkg.identifier rt := by
  simp only [build_package_for_runtime]
  split_ifs
  · intro e he
    simp at he
    exact Or.inl ⟨MesonPhase.setup, he⟩
  · intro e he
    simp at he
    rcases he with rfl | rfl
    · exact Or.inl ⟨MesonPhase.setup, rfl⟩
    · exact Or.inl ⟨MesonPhase.install, rfl⟩
  · split
    · intro e he
      simp at he
      rcases he with rfl | rfl | rfl
      · exact Or.inl ⟨MesonPhase.setup, rfl⟩
      · exact Or.inl ⟨MesonPhase.install, rfl⟩
      · exact Or.inl ⟨MesonPhase.introspect, rfl⟩
    · split
      · intro e he
        simp at he
        rcases he with rfl | rfl | rfl
        · exact Or.inl ⟨MesonPhase.setup, rfl⟩
        · exact Or.inl ⟨MesonPhase.install, rfl⟩
        · exact Or.inl ⟨MesonPhase.introspect, rfl⟩
      · intro e he
        simp at he
        rcases he with rfl | rfl | rfl | rfl
        · exact Or.inl ⟨MesonPhase.setup, rfl⟩
        · exact Or.inl ⟨MesonPhase.install, rfl⟩
        · exact Or.inl ⟨MesonPhase.introspect, rfl⟩
        · exact Or.inr rfl

/-- C2 counterexample: with `meson setup` and `meson install` succeeding
but `meson introspect --installed` exiting with status 1 while printing the
(vacuously valid) JSON object to stdout, the build completes normally and a
manifest file exists afterwards — an external build-tool invocation of the
triple exited non-zero partway through, yet a manifest exists, because the
source omits `check=True` on the introspect call. -/
theorem manifest_written_despite_failed_introspect :
    ((MesonOracle.mk (fun _ _ phase =>
        if phase = MesonPhase.introspect then
          { returncode := 1, stdout := "\x7b\x7d".toList }
        else
          { returncode := 0, stdout := [] })).result "libfoo" "static"
            MesonPhase.introspect).returncode ≠ 0 ∧
    (build_package_for_runtime
      { bundle := Bundle.sdk,
        hostMachine := ⟨"linux", "x86_64", "release", "linux-x86_64", "lib"⟩,
        workdir := "/cache/src" }
      (MesonOracle.mk (fun _ _ phase =>
        if phase = MesonPhase.introspect then
          { returncode := 1, stdout := "\x7b\x7d".toList }
        else
          { returncode := 0, stdout := [] }))
      { identifier := "libfoo", name := "libfoo", version := "v1", url := "u",
        options := [], dependencies := [], scope := none, when := none }
      "static" { manifests := [] }).2.2 = true ∧
    manifestExists
      (build_package_for_runtime
        { bundle := Bundle.sdk,
          hostMachine := ⟨"linux", "x86_64", "release", "linux-x86_64", "lib"⟩,
          workdir := "/cache/src" }
        (MesonOracle.mk (fun _ _ phase =>
          if phase = MesonPhase.introspect then
            { returncode := 1, stdout := "\x7b\x7d".toList }
          else
            { returncode := 0, stdout := [] }))
        { identifier := "libfoo", name := "libfoo", version := "v1", url := "u",
          options := [], dependencies := [], scope := none, when := none }
        "static" { manifests := [] }).1 "libfoo" "static" = true := by
  refine ⟨by decide, by decide, by decide⟩

/-- C2 (amended): a non-zero exit of the `setup` or `install` invocation
raises before the manifest write, so afterwards no manifest exists for the
(package, runtime) pair; more generally, whenever the per-runtime build
raises there is no manifest afterwards, and a manifest exists afterwards
exactly when the build ran to completion — but the `introspect` invocation's
exit status is never checked, so "build ran to completion" only requires its
stdout to parse, not its exit status to be zero. -/
theorem build_manifest_only_on_success (cfg : BuilderConfig) (o : MesonOracle)
    (pkg : PackageSpec) (rt : String) (st : BuildState)
    (hno : manifestExists st pkg.identifier rt = false) :
    ((o.result pkg.identifier rt MesonPhase.setup).returncode ≠ 0 ∨
      (o.result pkg.identifier rt MesonPhase.install).returncode ≠ 0 →
        (build_package_for_runtime cfg o pkg rt st).2.2 = false) ∧
    ((build_package_for_runtime cfg o pkg rt st).2.2 = false →
      manifestExists (build_package_for_runtime cfg o pkg rt st).1
        pkg.identifier rt = false) ∧
    ((build_package_for_runtime cfg o pkg rt st).2.2 = true →
      manifestExists (build_package_for_runtime cfg o pkg rt st).1
        pkg.identifier rt = true) := by
  refine ⟨?_, ?_, ?_⟩
  · intro hfail
    rcases bpfr_cases cfg o pkg rt st with ⟨-, hok⟩ | ⟨rels, -, -, h1, h2, -⟩
    · exact hok
    · rcases hfail with hf | hf
      · exact absurd h1 hf
      · exact absurd h2 hf
  · intro hraised
    rcases bpfr_cases cfg o pkg rt st with ⟨hst, -⟩ | ⟨rels, -, hok, -⟩
    · rw [hst]
      exact hno
    · rw [hok] at hraised
      cases hraised
  · intro hok
    rcases bpfr_cases cfg o pkg rt st with ⟨-, hfalse⟩ | ⟨rels, hst, -⟩
    · rw [hfalse] at hok
      cases hok
    · rw [hst]
      have hl : alookup (pkg.identifier, rt) st.manifests = none := by
        rcases hl : alookup (pkg.identifier, rt) st.manifests with - | v
        · rfl
        · simp [manifestExists, hl] at hno
      simp [manifestExists, alookup_append, hl, alookup]

/-- C2 witness: with `meson setup` failing, the build raises and no
manifest exists for the pair afterwards. -/
theorem build_manifest_only_on_success_witness :
    manifestExists
      (build_package_for_runtime
        { bundle := Bundle.sdk,
          hostMachine := ⟨"linux", "x86_64", "release", "linux-x86_64", "lib"⟩,
          workdir := "/cache/src" }
        (MesonOracle.mk (fun _ _ _ => { returncode := 2, stdout := [] }))
        { identifier := "libfoo", name := "libfoo", version := "v1", url := "u",
          options := [], dependencies := [], scope := none, when := none }
        "static" { manifests := [] }).1 "libfoo" "static" = false :=
  ((build_manifest_only_on_success
    { bundle := Bundle.sdk,
      hostMachine := ⟨"linux", "x86_64", "release", "linux-x86_64", "lib"⟩,
      workdir := "/cache/src" }
    (MesonOracle.mk (fun _ _ _ => { returncode := 2, stdout := [] }))
    { identifier := "libfoo", name := "libfoo", version := "v1", url := "u",
      options := [], dependencies := [], scope := none, when := none }
    "static" { manifests := [] } (by decide)).2.1
    ((build_manifest_only_on_success
      { bundle := Bundle.sdk,
        hostMachine := ⟨"linux", "x86_64", "release", "linux-x86_64", "lib"⟩,
        workdir := "/cache/src" }
      (MesonOracle.mk (fun _ _ _ => { returncode := 2, stdout := [] }))
      { identifier := "libfoo", name := "libfoo", version := "v1", url := "u",
        options := [], dependencies := [], scope := none, when := none }
      "static" { manifests := [] } (by decide)).1 (Or.inl (by decide))))

/-- C4: for every (package, runtime) whose manifest file exists when the
build step starts, the executor performs zero meson invocations for that
pair — the pair is treated as already built; in particular a second
invocation of the build step, with the manifest present and no invalidation
in between, performs zero external build-tool invocations for the pair. -/
theorem build_package_skips_existing (cfg : BuilderConfig) (o : MesonOracle)
    (pkg : PackageSpec) (rt : String) (runtimes : List String) (st : BuildState)
    (h : manifestExists st pkg.identifier rt = true) :
    ∀ e ∈ (build_package cfg o pkg runtimes st).2.1,
      ∀ ph, e ≠ Effect.meson pkg.identifier rt ph := by
  induction runtimes generalizing st with
  | nil =>
    intro e he
    simp [build_package] at he
  | cons rt' rest ih =>
    intro e he ph
    simp only [build_package] at he
    split at he
    case isTrue hm =>
      exact ih st h e he ph
    case isFalse hm =>
      have hrtne : rt' ≠ rt := by
        intro hrr
        rw [hrr] at hm
        exact hm h
      split at he
      case isTrue hok =>
        rcases List.mem_append.mp he with h1 | h2
        · rcases bpfr_trace_shape cfg o pkg rt' st e h1 with ⟨ph', rfl⟩ | rfl
          · simp [hrtne]
          · simp
        · exact ih _ (bpfr_mono cfg o pkg rt' st _ _ h) e h2 ph
      case isFalse hok =>
        rcases bpfr_trace_shape cfg o pkg rt' st e he with ⟨ph', rfl⟩ | rfl
        · simp [hrtne]
        · simp

/-- C4 witness: with the manifest for ("libfoo", "static") present and the
"dynamic" variant still to build, the one meson invocation in the build
step's trace is not for the ("libfoo", "static") pair. -/
theorem build_package_skips_existing_witness :
    Effect.meson "libfoo" "dynamic" MesonPhase.setup ≠
      Effect.meson "libfoo" "static" MesonPhase.setup :=
  build_package_skips_existing
    { bundle := Bundle.sdk,
      hostMachine := ⟨"windows", "x86", "release", "windows-x86", "lib"⟩,
      workdir := "/cache/src" }
    (MesonOracle.mk (fun _ _ _ => { returncode := 2, stdout := [] }))
    { identifier := "libfoo", name := "libfoo", version := "v1", url := "u",
      options := [], dependencies := [], scope := none, when := none }
    "static" ["static", "dynamic"] { manifests := [(("libfoo", "static"), [])] }
    (by decide)
    (Effect.meson "libfoo" "dynamic" MesonPhase.setup) (by decide)
    MesonPhase.setup

/-- The source-sync step never wipes the build state itself. -/
theorem grab_no_wipe (o : SyncOracle) (p : PackageSpec) :
    Effect.wipeBuildState ∉ (grab_and_prepare o p).2 := by
  simp only [grab_and_prepare]
  split_ifs <;> simp

/-- If every package syncs pristine, the preparation loop leaves the build
state untouched and never wipes. -/
theorem prepareLoop_pristine (o : SyncOracle) :
    ∀ (l : List PackageSpec) (st : BuildState),
      (∀ p ∈ l, (grab_and_prepare o p).1 = SourceState.pristine) →
      (prepareLoop o l st).1 = st ∧
        Effect.wipeBuildState ∉ (prepareLoop o l st).2 := by
  intro l
  induction l with
  | nil =>
    intro st _
    simp [prepareLoop]
  | cons p rest ih =>
    intro st hall
    have hp : (grab_and_prepare o p).1 = SourceState.pristine :=
      hall p (List.mem_cons_self p rest)
    have hne : ¬ ((grab_and_prepare o p).1 = SourceState.modified) := by
      rw [hp]
      intro hcontra
      cases hcontra
    have ihr := ih st (fun q hq => hall q (List.mem_cons_of_mem p hq))
    simp only [prepareLoop, if_neg hne]
    refine ⟨ihr.1, ?_⟩
    intro hmem
    rcases List.mem_append.mp hmem with h1 | h2
    · exact grab_no_wipe o p h1
    · exact ihr.2 h2

/-- C9: a package with no existing working copy is cloned with
`--recurse-submodules` and checked out at the pinned version, its
`SourceState` is `PRISTINE`, and a preparation pass in which every sync is
pristine (and the bootstrap toolchain is pristine) leaves the accumulated
build state untouched and performs no wipe — a fresh clone does not trigger
session-wide invalidation, while its absent manifest still means the build
step will build it. -/
theorem fresh_clone_pristine_no_invalidation (o : SyncOracle) (pkg : PackageSpec)
    (packages : List PackageSpec) (tState : SourceState) (st0 : BuildState)
    (hnodir : o.sourcedirExists pkg.identifier = false)
    (hall : ∀ p ∈ packages, (grab_and_prepare o p).1 = SourceState.pristine)
    (htool : tState = SourceState.pristine) :
    grab_and_prepare o pkg =
      (SourceState.pristine,
       [Effect.gitCloneRecurseSubmodules pkg.identifier,
        Effect.gitCheckout pkg.identifier]) ∧
    (prepare o tState packages st0).1 = st0 ∧
    Effect.wipeBuildState ∉ (prepare o tState packages st0).2 := by
  have hgrab : grab_and_prepare o pkg =
      (SourceState.pristine,
       [Effect.gitCloneRecurseSubmodules pkg.identifier,
        Effect.gitCheckout pkg.identifier]) := by
    simp [grab_and_prepare, hnodir]
  have hloop := prepareLoop_pristine o packages st0 hall
  have hne : ¬ (tState = SourceState.modified) := by
    rw [htool]
    intro hcontra
    cases hcontra
  refine ⟨hgrab, ?_, ?_⟩
  · simp only [prepare, if_neg hne]
    exact hloop.1
  · simp only [prepare, if_neg hne]
    exact hloop.2

/-- C9 witness: concrete session with one fresh clone and a pristine
toolchain. -/
theorem fresh_clone_pristine_no_invalidation_witness :
    grab_and_prepare
      (SyncOracle.mk (fun _ => false) (fun _ => "v1"))
      { identifier := "libfoo", name := "libfoo", version := "v1", url := "u",
        options := [], dependencies := [], scope := none, when := none } =
      (SourceState.pristine,
       [Effect.gitCloneRecurseSubmodules "libfoo", Effect.gitCheckout "libfoo"]) ∧
    (prepare (SyncOracle.mk (fun _ => false) (fun _ => "v1"))
      SourceState.pristine
      [{ identifier := "libfoo", name := "libfoo", version := "v1", url := "u",
         options := [], dependencies := [], scope := none, when := none }]
      { manifests := [] }).1 = { manifests := [] } := by
  have h := fresh_clone_pristine_no_invalidation
    (SyncOracle.mk (fun _ => false) (fun _ => "v1"))
    { identifier := "libfoo", name := "libfoo", version := "v1", url := "u",
      options := [], dependencies := [], scope := none, when := none }
    [{ identifier := "libfoo", name := "libfoo", version := "v1", url := "u",
       options := [], dependencies := [], scope := none, when := none }]
    SourceState.pristine { manifests := [] }
    (by decide) (by decide) rfl
  exact ⟨h.1, h.2.1⟩

/-- The preparation loop either leaves the state untouched or has wiped it. -/
theorem prepareLoop_state_cases (o : SyncOracle) :
    ∀ (l : List PackageSpec) (st : BuildState),
      (prepareLoop o l st).1 = st ∨ (prepareLoop o l st).1.manifests = [] := by
  intro l
  induction l with
  | nil =>
    intro st
    exact Or.inl rfl
  | cons p rest ih =>
    intro st
    simp only [prepareLoop]
    by_cases hmod : (grab_and_prepare o p).1 = SourceState.modified
    · rw [if_pos hmod]
      rcases ih (wipe_build_state st) with h | h
      · rw [h]
        exact Or.inr rfl
      · exact Or.inr h
    · rw [if_neg hmod]
      exact ih st

/-- If some package in the loop syncs modified, the loop output state has no
manifests left and the trace contains the wipe. -/
theorem prepareLoop_modified_wipes (o : SyncOracle) :
    ∀ (l : List PackageSpec) (st : BuildState),
      (∃ p ∈ l, (grab_and_prepare o p).1 = SourceState.modified) →
      (prepareLoop o l st).1.manifests = [] ∧
        Effect.wipeBuildState ∈ (prepareLoop o l st).2 := by
  intro l
  induction l with
  | nil =>
    intro st hex
    simp at hex
  | cons p rest ih =>
    intro st hex
    simp only [prepareLoop]
    by_cases hmod : (grab_and_prepare o p).1 = SourceState.modified
    · rw [if_pos hmod]
      constructor
      · rcases prepareLoop_state_cases o rest (wipe_build_state st) with h | h
        · rw [h]
          rfl
        · exact h
      · simp
    · rw [if_neg hmod]
      rcases hex with ⟨q, hq, hqmod⟩
      rcases List.mem_cons.mp hq with rfl | hq'
      · exact absurd hqmod hmod
      · have := ih st ⟨q, hq', hqmod⟩
        exact ⟨this.1, by simp [this.2]⟩

/-- If any sync was modified, or the bootstrap toolchain was, the whole
preparation deletes every manifest and performs the wipe. -/
theorem prepare_modified (o : SyncOracle) (tState : SourceState)
    (l : List PackageSpec) (st : BuildState)
    (hmod : (∃ p ∈ l, (grab_and_prepare o p).1 = SourceState.modified) ∨
      tState = SourceState.modified) :
    (prepare o tState l st).1.manifests = [] ∧
      Effect.wipeBuildState ∈ (prepare o tState l st).2 := by
  by_cases ht : tState = SourceState.modified
  · simp only [prepare, if_pos ht]
    exact ⟨rfl, by simp⟩
  · simp only [prepare, if_neg ht]
    rcases hmod with hex | ht'
    · exact prepareLoop_modified_wipes o l st hex
    · exact absurd ht' ht

/-- The sync step performs no meson invocation. -/
theorem grab_no_meson (o : SyncOracle) (p : PackageSpec) :
    ∀ e ∈ (grab_and_prepare o p).2, ∀ k r ph, e ≠ Effect.meson k r ph := by
  simp only [grab_and_prepare]
  split_ifs <;> (intro e he; simp at he) <;>
    (rcases he with rfl | rfl <;> intro k r ph <;> simp)

/-- The whole preparation phase performs no meson invocation: the wipe
happens strictly before any build-tool invocation of the build phase. -/
theorem prepare_no_meson (o : SyncOracle) (tState : SourceState) :
    ∀ (l : List PackageSpec) (st : BuildState),
      ∀ e ∈ (prepare o tState l st).2, ∀ k r ph, e ≠ Effect.meson k r ph := by
  have hloop : ∀ (l : List PackageSpec) (st : BuildState),
      ∀ e ∈ (prepareLoop o l st).2, ∀ k r ph, e ≠ Effect.meson k r ph := by
    intro l
    induction l with
    | nil =>
      intro st e he
      simp [prepareLoop] at he
    | cons p rest ih =>
      intro st e he
      simp only [prepareLoop] at he
      split at he
      · rcases List.mem_append.mp he with h1 | h2
        · rcases List.mem_append.mp h1 with h3 | h4
          · exact grab_no_meson o p e h3
          · simp at h4
            subst h4
            intro k r ph
            simp
        · exact ih _ e h2
      · rcases List.mem_append.mp he with h1 | h2
        · exact grab_no_meson o p e h1
        · exact ih _ e h2
  intro l st e he
  simp only [prepare] at he
  split at he
  · rcases List.mem_append.mp he with h1 | h2
    · exact hloop l st e h1
    · simp at h2
      subst h2
      intro k r ph
      simp
  · exact hloop l st e he

/-- A meson oracle under which every invocation succeeds, with the
introspection step reporting an empty installed-files object. -/
def mesonAlwaysSucceeds (o : MesonOracle) : Prop :=
  ∀ pkgid rt,
    (o.result pkgid rt MesonPhase.setup).returncode = 0 ∧
    (o.result pkgid rt MesonPhase.install).returncode = 0 ∧
    jsonObjectValues (o.result pkgid rt MesonPhase.introspect).stdout = some []

theorem bpfr_succeeds (cfg : BuilderConfig) (o : MesonOracle)
    (pkg : PackageSpec) (rt : String) (st : BuildState)
    (hs : mesonAlwaysSucceeds o) :
    (build_package_for_runtime cfg o pkg rt st).2.2 = true ∧
    Effect.meson pkg.identifier rt MesonPhase.setup ∈
      (build_package_for_runtime cfg o pkg rt st).2.1 := by
  obtain ⟨h1, h2, h3⟩ := hs pkg.identifier rt
  simp only [build_package_for_runtime]
  rw [if_neg (by simp [h1]), if_neg (by simp [h2])]
  simp only [h3]
  refine ⟨rfl, ?_⟩
  show Effect.meson pkg.identifier rt MesonPhase.setup ∈
    [Effect.meson pkg.identifier rt MesonPhase.setup,
     Effect.meson pkg.identifier rt MesonPhase.install,
     Effect.meson pkg.identifier rt MesonPhase.introspect] ++
    [Effect.writeManifest pkg.identifier rt]
  simp

/-- Under an always-succeeding oracle, the per-package build completes, every
runtime variant is either already built or gets its build-tool invocation,
and every manifest present afterwards was present before or came with its
own setup invocation in the trace. -/
theorem build_package_all (cfg : BuilderConfig) (o : MesonOracle)
    (pkg : PackageSpec) (hs : mesonAlwaysSucceeds o) :
    ∀ (runtimes : List String) (st : BuildState),
      (build_package cfg o pkg runtimes st).2.2 = true ∧
      (∀ rt ∈ runtimes, manifestExists st pkg.identifier rt = true ∨
        Effect.meson pkg.identifier rt MesonPhase.setup ∈
          (build_package cfg o pkg runtimes st).2.1) ∧
      (∀ k r, manifestExists (build_package cfg o pkg runtimes st).1 k r = true →
        manifestExists st k r = true ∨
          Effect.meson k r MesonPhase.setup ∈
            (build_package cfg o pkg runtimes st).2.1) := by
  intro runtimes
  induction runtimes with
  | nil =>
    intro st
    refine ⟨rfl, by simp, ?_⟩
    intro k r h
    exact Or.inl h
  | cons rt' rest ih =>
    intro st
    simp only [build_package]
    by_cases hm : manifestExists st pkg.identifier rt' = true
    · rw [if_pos hm]
      obtain ⟨hok, hcov, hsrc⟩ := ih st
      refine ⟨hok, ?_, hsrc⟩
      intro rt hrt
      rcases List.mem_cons.mp hrt with rfl | hrt'
      · exact Or.inl hm
      · exact hcov rt hrt'
    · rw [if_neg hm]
      obtain ⟨hbok, hbsetup⟩ := bpfr_succeeds cfg o pkg rt' st hs
      rw [if_pos hbok]
      obtain ⟨hok, hcov, hsrc⟩ := ih (build_package_for_runtime cfg o pkg rt' st).1
      refine ⟨hok, ?_, ?_⟩
      · intro rt hrt
        rcases List.mem_cons.mp hrt with rfl | hrt'
        · exact Or.inr (by simp [hbsetup])
        · rcases hcov rt hrt' with hpre | hmem
          · rcases bpfr_manifest_source cfg o pkg rt' st pkg.identifier rt hpre with
              hpre' | hmem'
            · exact Or.inl hpre'
            · exact Or.inr (by simp [hmem'])
          · exact Or.inr (by simp [hmem])
      · intro k r h
        rcases hsrc k r h with hpre | hmem
        · rcases bpfr_manifest_source cfg o pkg rt' st k r hpre with hpre' | hmem'
          · exact Or.inl hpre'
          · exact Or.inr (by simp [hmem'])
        · exact Or.inr (by simp [hmem])

/-- Under an always-succeeding oracle, the whole build phase completes and
each selected package, for each runtime variant, is either already built at
phase entry or gets a build-tool invocation in the trace. -/
theorem build_packages_all (cfg : BuilderConfig) (o : MesonOracle)
    (hs : mesonAlwaysSucceeds o) :
    ∀ (pkgs : List PackageSpec) (st : BuildState),
      (build_packages cfg o pkgs st).2.2 = true ∧
      (∀ p ∈ pkgs, ∀ rt ∈ builderRuntimes cfg,
        manifestExists st p.identifier rt = true ∨
        Effect.meson p.identifier rt MesonPhase.setup ∈
          (build_packages cfg o pkgs st).2.1) ∧
      (∀ k r, manifestExists (build_packages cfg o pkgs st).1 k r = true →
        manifestExists st k r = true ∨
          Effect.meson k r MesonPhase.setup ∈
            (build_packages cfg o pkgs st).2.1) := by
  intro pkgs
  induction pkgs with
  | nil =>
    intro st
    refine ⟨rfl, by simp, ?_⟩
    intro k r h
    exact Or.inl h
  | cons p rest ih =>
    intro st
    simp only [build_packages]
    obtain ⟨hpok, hpcov, hpsrc⟩ := build_package_all cfg o p hs (builderRuntimes cfg) st
    rw [if_pos hpok]
    obtain ⟨hok, hcov, hsrc⟩ := ih (build_package cfg o p (builderRuntimes cfg) st).1
    refine ⟨hok, ?_, ?_⟩
    · intro q hq rt hrt
      rcases List.mem_cons.mp hq with rfl | hq'
      · rcases hpcov rt hrt with hpre | hmem
        · exact Or.inl hpre
        · exact Or.inr (by simp [hmem])
      · rcases hcov q hq' rt hrt with hpre | hmem
        · rcases hpsrc q.identifier rt hpre with hpre' | hmem'
          · exact Or.inl hpre'
          · exact Or.inr (by simp [hmem'])
        · exact Or.inr (by simp [hmem])
    · intro k r h
      rcases hsrc k r h with hpre | hmem
      · rcases hpsrc k r hpre with hpre' | hmem'
        · exact Or.inl hpre'
        · exact Or.inr (by simp [hmem'])
      · exact Or.inr (by simp [hmem])

/-- C3: if any selected package's sync reports `MODIFIED` (or the bootstrap
toolchain was updated), the preparation phase deletes the entire accumulated
build output (all manifests) and performs the wipe, preparation performs no
build-tool invocation (so the wipe strictly precedes every build), and —
when the external tool then succeeds — every package in the session is
rebuilt: the subsequent build phase performs a build-tool invocation for
every selected package and every runtime variant. -/
theorem modified_source_wipes_and_rebuilds (cfg : BuilderConfig)
    (so : SyncOracle) (mo : MesonOracle) (packages : List PackageSpec)
    (tState : SourceState) (st0 : BuildState)
    (hmod : (∃ p ∈ packages, (grab_and_prepare so p).1 = SourceState.modified) ∨
      tState = SourceState.modified)
    (hs : mesonAlwaysSucceeds mo) :
    (prepare so tState packages st0).1.manifests = [] ∧
    Effect.wipeBuildState ∈ (prepare so tState packages st0).2 ∧
    (∀ e ∈ (prepare so tState packages st0).2, ∀ k r ph, e ≠ Effect.meson k r ph) ∧
    (∀ p ∈ packages, ∀ rt ∈ builderRuntimes cfg,
      Effect.meson p.identifier rt MesonPhase.setup ∈
        (build_packages cfg mo packages (prepare so tState packages st0).1).2.1) := by
  obtain ⟨hman, hwipe⟩ := prepare_modified so tState packages st0 hmod
  refine ⟨hman, hwipe, prepare_no_meson so tState packages st0, ?_⟩
  intro p hp rt hrt
  have h := (build_packages_all cfg mo hs packages
    (prepare so tState packages st0).1).2.1 p hp rt hrt
  rcases h with hpre | hmem
  · exfalso
    rw [manifestExists, hman] at hpre
    simp [alookup] at hpre
  · exact hmem

/-- C3 witness: one modified package out of two wipes the state in
preparation and both packages are then rebuilt. -/
theorem modified_source_wipes_and_rebuilds_witness :
    (prepare (SyncOracle.mk (fun _ => true) (fun _ => "other"))
      SourceState.pristine
      [{ identifier := "liba", name := "liba", version := "v1", url := "u",
         options := [], dependencies := [], scope := none, when := none },
       { identifier := "libb", name := "libb", version := "other", url := "u",
         options := [], dependencies := [], scope := none, when := none }]
      { manifests := [(("libb", "static"), [])] }).1.manifests = [] ∧
    Effect.wipeBuildState ∈ (prepare (SyncOracle.mk (fun _ => true) (fun _ => "other"))
      SourceState.pristine
      [{ identifier := "liba", name := "liba", version := "v1", url := "u",
         options := [], dependencies := [], scope := none, when := none },
       { identifier := "libb", name := "libb", version := "other", url := "u",
         options := [], dependencies := [], scope := none, when := none }]
      { manifests := [(("libb", "static"), [])] }).2 := by
  have hjson : jsonObjectValues "\x7b\x7d".toList = some [] := by decide
  have h := modified_source_wipes_and_rebuilds
    { bundle := Bundle.sdk,
      hostMachine := ⟨"linux", "x86_64", "release", "linux-x86_64", "lib"⟩,
      workdir := "/cache/src" }
    (SyncOracle.mk (fun _ => true) (fun _ => "other"))
    (MesonOracle.mk (fun _ _ _ => { returncode := 0, stdout := "\x7b\x7d".toList }))
    [{ identifier := "liba", name := "liba", version := "v1", url := "u",
       options := [], dependencies := [], scope := none, when := none },
     { identifier := "libb", name := "libb", version := "other", url := "u",
       options := [], dependencies := [], scope := none, when := none }]
    SourceState.pristine { manifests := [(("libb", "static"), [])] }
    (Or.inl ⟨{ identifier := "liba", name := "liba", version := "v1", url := "u",
               options := [], dependencies := [], scope := none, when := none },
             by decide, by decide⟩)
    (fun pkgid rt => ⟨rfl, rfl, hjson⟩)
  exact ⟨h.1, h.2.1⟩

/-! ### Dependency selection (`Builder.build`, lines 326–340)

Conditions (`when` fields) are Python expressions evaluated by `eval` over
the fixed globals `(Bundle, bundle, machine)`; for a fixed session this is a
pure boolean function of the condition string, modelled by an oracle
`ev : String → Bool`.  Python dicts become association lists in insertion
order.  The recursive depth-first closure `_resolve_package_dependencies`
is embedded with fuel (modelling the call stack); all theorems about it are
conditioned on it returning a result. -/

/-- `Builder._evaluate_condition`: `None` is true, otherwise `eval`. -/
def evaluate_condition (ev : String → Bool) : Option String → Bool
| none => true
| some cond => ev cond

/-- `Builder._can_build`. -/
def can_build (ev : String → Bool) (pkg : PackageSpec) : Bool :=
  evaluate_condition ev pkg.when

/-- `Builder._resolve_package`: filter options and dependencies by their
predicates. -/
def resolve_package (ev : String → Bool) (pkg : PackageSpec) : PackageSpec :=
  { pkg with
    options := pkg.options.filter (fun opt => evaluate_condition ev opt.when),
    dependencies := pkg.dependencies.filter (fun dep => evaluate_condition ev dep.when) }

/-- `all_packages = {i: resolve(p) for i, p in params.packages.items() if can_build(p)}`. -/
def allPackages (ev : String → Bool) (packages : List (String × PackageSpec)) :
    List (String × PackageSpec) :=
  (packages.filter (fun ip => can_build ev ip.2)).map
    (fun ip => (ip.1, resolve_package ev ip.2))

/-- `Builder._resolve_package_dependencies`: walk the dependency list,
skipping identifiers already resolved, inserting `all_packages[identifier]`
(`none` models the `KeyError` on an unknown identifier) and recursing into
the newly inserted package.  Fuel models the Python call stack. -/
def resolve_package_dependencies (all : List (String × PackageSpec)) :
    Nat → List DependencySpec → List (String × PackageSpec) →
    Option (List (String × PackageSpec))
| _, [], res => some res
| 0, _ :: _, _ => none
| fuel + 1, d :: ds, res =>
  if (alookup d.identifier res).isSome then
    resolve_package_dependencies all fuel ds res
  else
    match alookup d.identifier all with
    | none => none
    | some p =>
      match resolve_package_dependencies all fuel p.dependencies
          (res ++ [(d.identifier, p)]) with
      | none => none
      | some res' => resolve_package_dependencies all fuel ds res'

/-- The `for p in packages: self._resolve_package_dependencies(p, ...)` loop
of `Builder._resolve_dependencies`. -/
def resolveDepsAux (all : List (String × PackageSpec)) (fuel : Nat) :
    List PackageSpec → List (String × PackageSpec) →
    Option (List (String × PackageSpec))
| [], res => some res
| p :: ps, res =>
  match resolve_package_dependencies all fuel p.dependencies res with
  | none => none
  | some res' => resolveDepsAux all fuel ps res'

def maxDepCount (all : List (String × PackageSpec)) : Nat :=
  all.foldl (fun m ip => max m ip.2.dependencies.length) 0

/-- Fuel bound exceeding any possible recursion depth of the DFS. -/
def dfsFuel (all : List (String × PackageSpec)) : Nat :=
  (all.length + 1) * (maxDepCount all + 1) + 1

/-- `Builder._resolve_dependencies`: seed the result with the top-level
packages, then close over dependencies. -/
def resolve_dependencies (all : List (String × PackageSpec))
    (tops : List PackageSpec) : Option (List (String × PackageSpec)) :=
  resolveDepsAux all (dfsFuel all) tops (tops.map (fun p => (p.identifier, p)))

/-- The package-selection prefix of `Builder.build` (up to and including the
exclusion filter): resolve buildable packages, choose top-levels (the
explicit subset, or toolchain-scoped packages, or — by default — all
unscoped packages, the latter *without* any dependency closure), then drop
excluded identifiers. -/
def buildSelection (ev : String → Bool) (bundle : Bundle)
    (only_packages : Option (List String)) (excluded_packages : List String)
    (packages : List (String × PackageSpec)) :
    Option (List (String × PackageSpec)) :=
  let all := allPackages ev packages
  let selected :=
    match only_packages with
    | some ids =>
      match ids.mapM (fun i => alookup i all) with
      | none => none
      | some tops => resolve_dependencies all tops
    | none =>
      match bundle with
      | Bundle.toolchain =>
        resolve_dependencies all
          ((all.map Prod.snd).filter (fun p => p.scope = some "toolchain"))
      | Bundle.sdk => some (all.filter (fun ip => ip.2.scope = none))
  match selected with
  | none => none
  | some sel =>
    some (sel.filter (fun ip => decide (¬ ip.1 ∈ excluded_packages)))

/-- Effective dependency edge identifiers of a resolved package. -/
def depIds (p : PackageSpec) : List String :=
  p.dependencies.map DependencySpec.identifier

/-- One effective dependency edge of the resolved package dictionary. -/
def DepEdge (all : List (String × PackageSpec)) (i j : String) : Prop :=
  ∃ p, alookup i all = some p ∧ j ∈ depIds p

/-- Reachability along effective dependency edges. -/
def Reaches (all : List (String × PackageSpec)) : String → String → Prop :=
  Relation.ReflTransGen (DepEdge all)

/-! ### Topological ordering (`graphlib.TopologicalSorter`)

`graphlib` is the Python standard library (external); modelled from the
spec: it emits nodes whose predecessors are all emitted, round by round,
and raises `CycleError` — before `static_order` yields anything — exactly
when it gets stuck with nodes remaining.  Nodes appearing only as
predecessors are added with no predecessors of their own. -/

def topoGraph (sel : List (String × PackageSpec)) : List (String × List String) :=
  sel.map (fun ip => (ip.2.identifier, depIds ip.2))

def readyB (g : List (String × List String)) (done : List String) (i : String) : Bool :=
  match alookup i g with
  | some ds => ds.all (fun d => decide (d ∈ done))
  | none => true

def kahnAux (g : List (String × List String)) :
    Nat → List String → List String → Option (List String)
| _, [], done => some done
| 0, _ :: _, _ => none
| fuel + 1, i :: rest, done =>
  let ready := (i :: rest).filter (readyB g done)
  if ready.isEmpty then none
  else kahnAux g fuel ((i :: rest).filter (fun j => decide (¬ j ∈ ready)))
    (done ++ ready)

def topoNodes (g : List (String × List String)) : List String :=
  (g.map Prod.fst ++ (g.map Prod.snd).flatten).dedup

def topological_order (g : List (String × List String)) : Option (List String) :=
  kahnAux g (topoNodes g).length (topoNodes g) []

/-- A non-empty node set in which every node has an effective dependency
edge back into the set: exactly the witness of a dependency cycle among the
selected packages. -/
def CycleSet (g : List (String × List String)) (c : List String) : Prop :=
  c ≠ [] ∧ ∀ m ∈ c, ∃ m', m' ∈ c ∧
    (match alookup m g with
     | some ds => decide (m' ∈ ds)
     | none => false) = true

/-- `Builder.build` end to end: selection, topological ordering and the
per-identifier lookup into the selection (all raising — `none` — before any
side effect), then the effectful preparation and build phases.  A `none`
result is an exception raised before any synchronization, invalidation or
build-tool invocation. -/
def buildRun (cfg : BuilderConfig) (ev : String → Bool)
    (only_packages : Option (List String)) (excluded_packages : List String)
    (packages : List (String × PackageSpec)) (so : SyncOracle)
    (tState : SourceState) (mo : MesonOracle) (st0 : BuildState) :
    Option (BuildState × List Effect × Bool) :=
  match buildSelection ev cfg.bundle only_packages excluded_packages packages with
  | none => none
  | some sel =>
    match topological_order (topoGraph sel) with
    | none => none
    | some order =>
      match order.mapM (fun i => alookup i sel) with
      | none => none
      | some pkgs =>
        let prep := prepare so tState pkgs st0
        let built := build_packages cfg mo pkgs prep.1
        some (built.1, prep.2 ++ built.2.1, built.2.2)

theorem alookup_isSome_iff {α β : Type} [DecidableEq α] (k : α) :
    ∀ l : List (α × β), (alookup k l).isSome = true ↔ k ∈ l.map Prod.fst := by
  intro l
  induction l with
  | nil => simp [alookup]
  | cons kv rest ih =>
    by_cases hk : k = kv.1
    · simp [alookup, hk]
    · simp [alookup, hk, ih]

/-- A cycle set can never be emitted: once every ready batch avoids the
cycle, the sorter either stalls (raising `CycleError`) or runs out of nodes
to make progress with. -/
theorem kahnAux_cycle_none (g : List (String × List String)) (c : List String)
    (hc : CycleSet g c) :
    ∀ (fuel : Nat) (pending done : List String),
      (∀ m ∈ c, m ∈ pending) → (∀ m ∈ c, m ∉ done) →
      kahnAux g fuel pending done = none := by
  obtain ⟨hne, hsucc⟩ := hc
  obtain ⟨m₀, hm₀⟩ : ∃ m, m ∈ c := by
    cases c with
    | nil => exact absurd rfl hne
    | cons x xs => exact ⟨x, List.mem_cons_self x xs⟩
  intro fuel
  induction fuel with
  | zero =>
    intro pending done hpend _
    cases pending with
    | nil => exact absurd (hpend m₀ hm₀) (List.not_mem_nil m₀)
    | cons i rest => rfl
  | succ fuel ih =>
    intro pending done hpend hdone
    cases pending with
    | nil => exact absurd (hpend m₀ hm₀) (List.not_mem_nil m₀)
    | cons i rest =>
      have hnotready : ∀ m ∈ c, readyB g done m = false := by
        intro m hm
        obtain ⟨m', hm'c, hedge⟩ := hsucc m hm
        unfold readyB
        rcases hl : alookup m g with - | ds
        · rw [hl] at hedge
          simp at hedge
        · rw [hl] at hedge
          simp only [decide_eq_true_eq] at hedge
          apply List.all_eq_false.mpr
          exact ⟨m', hedge, by simp [hdone m' hm'c]⟩
      simp only [kahnAux]
      by_cases hre : ((i :: rest).filter (readyB g done)).isEmpty = true
      · rw [if_pos hre]
      · rw [if_neg hre]
        apply ih
        · intro m hm
          apply List.mem_filter.mpr
          refine ⟨hpend m hm, ?_⟩
          simp only [decide_eq_true_eq]
          intro hmem
          have hrm := (List.mem_filter.mp hmem).2
          rw [hnotready m hm] at hrm
          cases hrm
        · intro m hm hmem
          rcases List.mem_append.mp hmem with h1 | h2
          · exact hdone m hm h1
          · have hrm := (List.mem_filter.mp h2).2
            rw [hnotready m hm] at hrm
            cases hrm

/-- C5: whenever the effective dependency edges restricted to the selected
packages contain a cycle, the build run fails — the topological sorter
raises `CycleError` — and the failure happens before any source
synchronization, cache invalidation or build-tool invocation (the model
produces its effect trace only past this point). -/
theorem build_cycle_fails (cfg : BuilderConfig) (ev : String → Bool)
    (only_packages : Option (List String)) (excluded_packages : List String)
    (packages : List (String × PackageSpec)) (sel : List (String × PackageSpec))
    (c : List String) (so : SyncOracle) (tState : SourceState) (mo : MesonOracle)
    (st0 : BuildState)
    (hsel : buildSelection ev cfg.bundle only_packages excluded_packages packages =
      some sel)
    (hcyc : CycleSet (topoGraph sel) c) :
    buildRun cfg ev only_packages excluded_packages packages so tState mo st0 =
      none := by
  have htopo : topological_order (topoGraph sel) = none := by
    unfold topological_order
    apply kahnAux_cycle_none (topoGraph sel) c hcyc
    · intro m hm
      obtain ⟨m', hm', hedge⟩ := hcyc.2 m hm
      have hkey : m ∈ (topoGraph sel).map Prod.fst := by
        rcases hl : alookup m (topoGraph sel) with - | ds
        · rw [hl] at hedge
          simp at hedge
        · exact (alookup_isSome_iff m (topoGraph sel)).mp (by simp [hl])
      unfold topoNodes
      exact List.mem_dedup.mpr (List.mem_append_left _ hkey)
    · intro m _
      exact List.not_mem_nil m
  simp only [buildRun, hsel, htopo]

/-- Two mutually dependent unscoped packages. -/
def cyclePkgA : PackageSpec :=
  { identifier := "a", name := "a", version := "v", url := "u", options := [],
    dependencies := [{ identifier := "b", when := none }], scope := none,
    when := none }

def cyclePkgB : PackageSpec :=
  { identifier := "b", name := "b", version := "v", url := "u", options := [],
    dependencies := [{ identifier := "a", when := none }], scope := none,
    when := none }

def cyclePackages : List (String × PackageSpec) :=
  [("a", cyclePkgA), ("b", cyclePkgB)]

/-- C5 witness: a concrete two-package cycle makes the whole build run fail
with no effects. -/
theorem build_cycle_fails_witness :
    buildRun
      { bundle := Bundle.sdk,
        hostMachine := ⟨"linux", "x86_64", "release", "linux-x86_64", "lib"⟩,
        workdir := "/cache/src" }
      (fun _ => false) none [] cyclePackages
      (SyncOracle.mk (fun _ => true) (fun _ => "v"))
      SourceState.pristine
      (MesonOracle.mk (fun _ _ _ => { returncode := 0, stdout := [] }))
      { manifests := [] } = none :=
  build_cycle_fails
    { bundle := Bundle.sdk,
      hostMachine := ⟨"linux", "x86_64", "release", "linux-x86_64", "lib"⟩,
      workdir := "/cache/src" }
    (fun _ => false) none [] cyclePackages [("a", cyclePkgA), ("b", cyclePkgB)]
    ["a", "b"]
    (SyncOracle.mk (fun _ => true) (fun _ => "v"))
    SourceState.pristine
    (MesonOracle.mk (fun _ _ _ => { returncode := 0, stdout := [] }))
    { manifests := [] }
    (by decide)
    (by
      refine ⟨by decide, ?_⟩
      intro m hm
      fin_cases hm
      · exact ⟨"b", by decide, by decide⟩
      · exact ⟨"a", by decide, by decide⟩)

theorem mem_keys_of_prefix {α β : Type} {l₁ l₂ : List (α × β)} (h : l₁ <+: l₂)
    {k : α} (hk : k ∈ l₁.map Prod.fst) : k ∈ l₂.map Prod.fst :=
  (h.sublist.map Prod.fst).subset hk

/-- Structural postcondition of the dependency DFS: the resolved dictionary
only grows, every new entry is the `all_packages` entry for its key, every
dependency of the walked list ends up resolved, and every entry added during
the walk has all of its dependencies resolved. -/
theorem rpd_post (all : List (String × PackageSpec)) :
    ∀ (fuel : Nat) (ds : List DependencySpec) (res res' : List (String × PackageSpec)),
      resolve_package_dependencies all fuel ds res = some res' →
      res <+: res' ∧
      (∀ ip ∈ res', ip ∈ res ∨ alookup ip.1 all = some ip.2) ∧
      (∀ d ∈ ds, d.identifier ∈ res'.map Prod.fst) ∧
      (∀ ip ∈ res', ip ∉ res → ∀ d ∈ ip.2.dependencies,
        d.identifier ∈ res'.map Prod.fst) := by
  intro fuel
  induction fuel with
  | zero =>
    intro ds res res' h
    cases ds with
    | nil =>
      simp only [resolve_package_dependencies] at h
      cases h
      exact ⟨List.prefix_refl res, fun ip hip => Or.inl hip, by simp,
        fun ip hip hnot => absurd hip hnot⟩
    | cons d ds =>
      simp only [resolve_package_dependencies] at h
      cases h
  | succ fuel ih =>
    intro ds res res' h
    cases ds with
    | nil =>
      simp only [resolve_package_dependencies] at h
      cases h
      exact ⟨List.prefix_refl res, fun ip hip => Or.inl hip, by simp,
        fun ip hip hnot => absurd hip hnot⟩
    | cons d ds =>
      simp only [resolve_package_dependencies] at h
      split at h
      case isTrue hmem =>
        obtain ⟨hpre, hinv, hcov, hcl⟩ := ih ds res res' h
        refine ⟨hpre, hinv, ?_, hcl⟩
        intro d' hd'
        rcases List.mem_cons.mp hd' with rfl | hd''
        · exact mem_keys_of_prefix hpre ((alookup_isSome_iff _ _).mp hmem)
        · exact hcov d' hd''
      case isFalse hmem =>
        split at h
        · cases h
        next p hl =>
          split at h
          · cases h
          next res'' hrec =>
            obtain ⟨hpre1, hinv1, hcov1, hcl1⟩ :=
              ih p.dependencies (res ++ [(d.identifier, p)]) res'' hrec
            obtain ⟨hpre2, hinv2, hcov2, hcl2⟩ := ih ds res'' res' h
            have hpre01 : res <+: res'' :=
              (List.prefix_append res [(d.identifier, p)]).trans hpre1
            refine ⟨hpre01.trans hpre2, ?_, ?_, ?_⟩
            · intro ip hip
              rcases hinv2 ip hip with hip'' | hlk
              · rcases hinv1 ip hip'' with hip0 | hlk
                · rcases List.mem_append.mp hip0 with hin | hone
                  · exact Or.inl hin
                  · simp only [List.mem_singleton] at hone
                    rw [hone]
                    exact Or.inr hl
                · exact Or.inr hlk
              · exact Or.inr hlk
            · intro d' hd'
              rcases List.mem_cons.mp hd' with rfl | hd''
              · apply mem_keys_of_prefix (hpre1.trans hpre2)
                simp
              · exact hcov2 d' hd''
            · intro ip hip hnot
              by_cases hip'' : ip ∈ res''
              · by_cases hip0 : ip ∈ res ++ [(d.identifier, p)]
                · rcases List.mem_append.mp hip0 with hin | hone
                  · exact absurd hin hnot
                  · simp only [List.mem_singleton] at hone
                    intro dd hdd
                    apply mem_keys_of_prefix hpre2
                    apply hcov1
                    rw [hone] at hdd
                    exact hdd
                · intro dd hdd
                  exact mem_keys_of_prefix hpre2 (hcl1 ip hip'' hip0 dd hdd)
              · exact hcl2 ip hip hip''

/-- Soundness of the dependency DFS: every entry it adds is reachable from
the seed identifiers `S` along effective dependency edges, provided every
walked dependency is. -/
theorem rpd_sound (all : List (String × PackageSpec)) (S : List String) :
    ∀ (fuel : Nat) (ds : List DependencySpec) (res res' : List (String × PackageSpec)),
      resolve_package_dependencies all fuel ds res = some res' →
      (∀ d ∈ ds, ∃ t ∈ S, Reaches all t d.identifier) →
      ∀ ip ∈ res', ip ∈ res ∨ ∃ t ∈ S, Reaches all t ip.1 := by
  intro fuel
  induction fuel with
  | zero =>
    intro ds res res' h hds
    cases ds with
    | nil =>
      simp only [resolve_package_dependencies] at h
      cases h
      exact fun ip hip => Or.inl hip
    | cons d ds =>
      simp only [resolve_package_dependencies] at h
      cases h
  | succ fuel ih =>
    intro ds res res' h hds
    cases ds with
    | nil =>
      simp only [resolve_package_dependencies] at h
      cases h
      exact fun ip hip => Or.inl hip
    | cons d ds =>
      simp only [resolve_package_dependencies] at h
      split at h
      case isTrue hmem =>
        exact ih ds res res' h (fun d' hd' => hds d' (List.mem_cons_of_mem d hd'))
      case isFalse hmem =>
        split at h
        · cases h
        next p hl =>
          split at h
          · cases h
          next res'' hrec =>
            have hdreach : ∃ t ∈ S, Reaches all t d.identifier :=
              hds d (List.mem_cons_self d ds)
            have hinner : ∀ d' ∈ p.dependencies,
                ∃ t ∈ S, Reaches all t d'.identifier := by
              intro d' hd'
              obtain ⟨t, ht, hr⟩ := hdreach
              refine ⟨t, ht, Relation.ReflTransGen.tail hr ⟨p, hl, ?_⟩⟩
              exact List.mem_map_of_mem DependencySpec.identifier hd'
            intro ip hip
            rcases ih ds res'' res' h
                (fun d' hd' => hds d' (List.mem_cons_of_mem d hd')) ip hip with
              hip'' | hreach
            · rcases ih p.dependencies (res ++ [(d.identifier, p)]) res'' hrec
                  hinner ip hip'' with hip0 | hreach
              · rcases List.mem_append.mp hip0 with hin | hone
                · exact Or.inl hin
                · simp only [List.mem_singleton] at hone
                  right
                  rw [hone]
                  exact hdreach
              · exact Or.inr hreach
            · exact Or.inr hreach

/-- Structural postcondition of the `_resolve_dependencies` loop. -/
theorem rda_props (all : List (String × PackageSpec)) (fuel : Nat) :
    ∀ (tops : List PackageSpec) (res res' : List (String × PackageSpec)),
      resolveDepsAux all fuel tops res = some res' →
      res <+: res' ∧
      (∀ ip ∈ res', ip ∈ res ∨ alookup ip.1 all = some ip.2) ∧
      (∀ p ∈ tops, ∀ d ∈ p.dependencies, d.identifier ∈ res'.map Prod.fst) ∧
      (∀ ip ∈ res', ip ∉ res → ∀ d ∈ ip.2.dependencies,
        d.identifier ∈ res'.map Prod.fst) := by
  intro tops
  induction tops with
  | nil =>
    intro res res' h
    simp only [resolveDepsAux] at h
    cases h
    exact ⟨List.prefix_refl res, fun ip hip => Or.inl hip, by simp,
      fun ip hip hnot => absurd hip hnot⟩
  | cons p ps ih =>
    intro res res' h
    simp only [resolveDepsAux] at h
    split at h
    · cases h
    next res'' hrec =>
      obtain ⟨hpre1, hinv1, hcov1, hcl1⟩ := rpd_post all fuel p.dependencies res res'' hrec
      obtain ⟨hpre2, hinv2, hcov2, hcl2⟩ := ih res'' res' h
      refine ⟨hpre1.trans hpre2, ?_, ?_, ?_⟩
      · intro ip hip
        rcases hinv2 ip hip with hip'' | hlk
        · rcases hinv1 ip hip'' with hip0 | hlk
          · exact Or.inl hip0
          · exact Or.inr hlk
        · exact Or.inr hlk
      · intro q hq d hd
        rcases List.mem_cons.mp hq with rfl | hq'
        · exact mem_keys_of_prefix hpre2 (hcov1 d hd)
        · exact hcov2 q hq' d hd
      · intro ip hip hnot
        by_cases hip'' : ip ∈ res''
        · intro dd hdd
          exact mem_keys_of_prefix hpre2 (hcl1 ip hip'' hnot dd hdd)
        · exact hcl2 ip hip hip''

/-- Soundness of the `_resolve_dependencies` loop: everything resolved is
reachable from the top-level identifiers. -/
theorem rda_sound (all : List (String × PackageSpec)) (S : List String) (fuel : Nat) :
    ∀ (tops : List PackageSpec) (res res' : List (String × PackageSpec)),
      resolveDepsAux all fuel tops res = some res' →
      (∀ p ∈ tops, p.identifier ∈ S ∧ alookup p.identifier all = some p) →
      ∀ ip ∈ res', ip ∈ res ∨ ∃ t ∈ S, Reaches all t ip.1 := by
  intro tops
  induction tops with
  | nil =>
    intro res res' h _
    simp only [resolveDepsAux] at h
    cases h
    exact fun ip hip => Or.inl hip
  | cons p ps ih =>
    intro res res' h htops
    simp only [resolveDepsAux] at h
    split at h
    · cases h
    next res'' hrec =>
      obtain ⟨hpS, hplk⟩ := htops p (List.mem_cons_self p ps)
      have hds : ∀ d ∈ p.dependencies, ∃ t ∈ S, Reaches all t d.identifier := by
        intro d hd
        refine ⟨p.identifier, hpS,
          Relation.ReflTransGen.tail Relation.ReflTransGen.refl ⟨p, hplk, ?_⟩⟩
        exact List.mem_map_of_mem DependencySpec.identifier hd
      intro ip hip
      rcases ih res'' res' h (fun q hq => htops q (List.mem_cons_of_mem p hq))
          ip hip with hip'' | hreach
      · exact rpd_sound all S fuel p.dependencies res res'' hrec hds ip hip''
      · exact Or.inr hreach

/-- Closure correctness of `_resolve_dependencies`: when it succeeds, an
identifier is resolved exactly when it is reachable from a top-level
package's identifier along effective dependency edges. -/
theorem resolve_dependencies_closure (all : List (String × PackageSpec))
    (tops : List PackageSpec) (sel : List (String × PackageSpec))
    (htops : ∀ p ∈ tops, alookup p.identifier all = some p)
    (hsel : resolve_dependencies all tops = some sel) :
    ∀ i, i ∈ sel.map Prod.fst ↔
      ∃ t ∈ tops.map PackageSpec.identifier, Reaches all t i := by
  unfold resolve_dependencies at hsel
  obtain ⟨hpre, hinv, hcov, hcl⟩ :=
    rda_props all (dfsFuel all) tops (tops.map (fun p => (p.identifier, p))) sel hsel
  have hres0keys : (tops.map (fun p => (p.identifier, p))).map Prod.fst =
      tops.map PackageSpec.identifier := by
    simp [List.map_map]
  intro i
  constructor
  · intro hi
    obtain ⟨ip, hip, rfl⟩ := List.mem_map.mp hi
    rcases rda_sound all (tops.map PackageSpec.identifier) (dfsFuel all) tops
        (tops.map (fun p => (p.identifier, p))) sel hsel
        (fun p hp => ⟨List.mem_map_of_mem PackageSpec.identifier hp, htops p hp⟩)
        ip hip with h0 | hreach
    · obtain ⟨q, hq, hqip⟩ := List.mem_map.mp h0
      refine ⟨ip.1, ?_, Relation.ReflTransGen.refl⟩
      rw [← hqip]
      exact List.mem_map_of_mem PackageSpec.identifier hq
    · exact hreach
  · rintro ⟨t, ht, hreach⟩
    induction hreach with
    | refl =>
      apply mem_keys_of_prefix hpre
      rw [hres0keys]
      exact ht
    | tail hr hedge ihj =>
      obtain ⟨p, hlk, hdep⟩ := hedge
      obtain ⟨ip, hip, hipj⟩ := List.mem_map.mp ihj
      have hiplk : alookup ip.1 all = some ip.2 := by
        rcases hinv ip hip with h0 | hlk'
        · obtain ⟨q, hq, hqip⟩ := List.mem_map.mp h0
          rw [← hqip]
          exact htops q hq
        · exact hlk'
      rw [hipj] at hiplk
      rw [hlk] at hiplk
      have hpeq : ip.2 = p := by
        cases hiplk
        rfl
      obtain ⟨d, hd, hdi⟩ := List.mem_map.mp hdep
      rw [← hdi]
      by_cases h0 : ip ∈ tops.map (fun p => (p.identifier, p))
      · obtain ⟨q, hq, hqip⟩ := List.mem_map.mp h0
        apply hcov q hq
        have : q = ip.2 := by rw [← hqip]
        rw [this, hpeq]
        exact hd
      · apply hcl ip hip h0
        rw [hpeq]
        exact hd

/-- `resolve_package` preserves the identifier, so the resolved dictionary
still maps each key to a package carrying that key. -/
theorem allPackages_id (ev : String → Bool) (packages : List (String × PackageSpec))
    (hid : ∀ ip ∈ packages, (ip.2 : PackageSpec).identifier = ip.1) :
    ∀ ip ∈ allPackages ev packages, (ip.2 : PackageSpec).identifier = ip.1 := by
  intro ip hip
  obtain ⟨jq, hjq, hjqip⟩ := List.mem_map.mp hip
  have hjq' : jq ∈ packages := (List.mem_filter.mp hjq).1
  rw [← hjqip]
  exact hid jq hjq'

theorem allPackages_nodup (ev : String → Bool) (packages : List (String × PackageSpec))
    (hnd : (packages.map Prod.fst).Nodup) :
    ((allPackages ev packages).map Prod.fst).Nodup := by
  have hkeys : (allPackages ev packages).map Prod.fst =
      (packages.filter (fun ip => can_build ev ip.2)).map Prod.fst := by
    simp [allPackages, List.map_map]
  rw [hkeys]
  exact List.Nodup.sublist ((List.filter_sublist packages).map Prod.fst) hnd

theorem alookup_some_mem {α β : Type} [DecidableEq α] (k : α) (v : β) :
    ∀ l : List (α × β), alookup k l = some v → (k, v) ∈ l := by
  intro l
  induction l with
  | nil => intro h; cases h
  | cons kv rest ih =>
    intro h
    simp only [alookup] at h
    split_ifs at h with hk
    · cases h
      rw [hk]
      exact List.mem_cons_self _ _
    · exact List.mem_cons_of_mem kv (ih h)

theorem alookup_mem_of_nodup {α β : Type} [DecidableEq α] (k : α) (v : β) :
    ∀ l : List (α × β), (l.map Prod.fst).Nodup → (k, v) ∈ l →
      alookup k l = some v := by
  intro l
  induction l with
  | nil => intro _ h; cases h
  | cons kv rest ih =>
    intro hnd hmem
    simp only [List.map_cons, List.nodup_cons] at hnd
    rcases List.mem_cons.mp hmem with heq | hmem'
    · rw [← heq]
      simp [alookup]
    · have hkne : k ≠ kv.1 := by
        intro hkeq
        apply hnd.1
        rw [← hkeq]
        exact List.mem_map_of_mem Prod.fst hmem'
      simp only [alookup, if_neg hkne]
      exact ih hnd.2 hmem'

theorem mapM_alookup (all : List (String × PackageSpec)) :
    ∀ (ids : List String) (tops : List PackageSpec),
      ids.mapM (fun i => alookup i all) = some tops →
      (∀ i ∈ ids, ∃ p ∈ tops, alookup i all = some p) ∧
      (∀ p ∈ tops, ∃ i ∈ ids, alookup i all = some p) := by
  intro ids
  induction ids with
  | nil =>
    intro tops h
    simp only [List.mapM_nil, pure, Option.some.injEq] at h
    subst h
    exact ⟨by simp, by simp⟩
  | cons i ids ih =>
    intro tops h
    rw [List.mapM_cons] at h
    rcases hl : alookup i all with - | p
    · rw [hl] at h
      simp at h
    · rw [hl] at h
      rcases hm : ids.mapM (fun j => alookup j all) with - | ps
      · rw [hm] at h
        simp at h
      · rw [hm] at h
        simp only [Option.bind_some, Option.bind_eq_bind, Option.some_bind, pure,
          Option.some.injEq] at h
        obtain ⟨h1, h2⟩ := ih ps hm
        constructor
        · intro j hj
          rcases List.mem_cons.mp hj with rfl | hj'
          · exact ⟨p, by rw [← h]; exact List.mem_cons_self p ps, hl⟩
          · obtain ⟨q, hq, hqlk⟩ := h1 j hj'
            exact ⟨q, by rw [← h]; exact List.mem_cons_of_mem p hq, hqlk⟩
        · intro q hq
          rw [← h] at hq
          rcases List.mem_cons.mp hq with rfl | hq'
          · exact ⟨i, List.mem_cons_self i ids, hl⟩
          · obtain ⟨j, hj, hjlk⟩ := h2 q hq'
            exact ⟨j, List.mem_cons_of_mem i hj, hjlk⟩

theorem mem_keys_filter_excl (l : List (String × PackageSpec))
    (excl : List String) (i : String) :
    i ∈ (l.filter (fun ip => decide (¬ ip.1 ∈ excl))).map Prod.fst ↔
      i ∈ l.map Prod.fst ∧ i ∉ excl := by
  constructor
  · intro h
    obtain ⟨ip, hip, rfl⟩ := List.mem_map.mp h
    obtain ⟨hl, hex⟩ := List.mem_filter.mp hip
    exact ⟨List.mem_map_of_mem Prod.fst hl, by simpa using hex⟩
  · rintro ⟨h, hex⟩
    obtain ⟨ip, hip, rfl⟩ := List.mem_map.mp h
    exact List.mem_map_of_mem Prod.fst
      (List.mem_filter.mpr ⟨hip, by simpa using hex⟩)

/-- The spec-side description of which identifiers `Builder.build` selects
(before exclusion): with an explicit subset, everything reachable from the
listed identifiers; for a toolchain bundle, everything reachable from the
toolchain-scoped packages; for the default SDK bundle, exactly the unscoped
buildable packages. -/
def SelectedCore (ev : String → Bool) (bundle : Bundle)
    (only_packages : Option (List String))
    (packages : List (String × PackageSpec)) (i : String) : Prop :=
  match only_packages, bundle with
  | some ids, _ => ∃ t ∈ ids, Reaches (allPackages ev packages) t i
  | none, Bundle.toolchain =>
      ∃ t p, alookup t (allPackages ev packages) = some p ∧
        p.scope = some "toolchain" ∧ Reaches (allPackages ev packages) t i
  | none, Bundle.sdk =>
      ∃ p, alookup i (allPackages ev packages) = some p ∧ p.scope = none

/-- C1 (amended): the exclusion step removes exactly the excluded
identifiers and nothing else — excluding an identifier never removes other
packages that a still-selected package depends on.  When an explicit
top-level subset is supplied, or the bundle is Toolchain, the selection
before exclusion is precisely the set of identifiers reachable from the
chosen top-level packages along effective (predicate-filtered) dependency
edges.  In the default SDK case, however, the selection before exclusion is
exactly the set of unscoped buildable packages: no dependency closure is
computed there. -/
theorem build_selection_characterization (ev : String → Bool) (bundle : Bundle)
    (only_packages : Option (List String)) (excluded_packages : List String)
    (packages sel : List (String × PackageSpec))
    (hid : ∀ ip ∈ packages, (ip.2 : PackageSpec).identifier = ip.1)
    (hnd : (packages.map Prod.fst).Nodup)
    (hsel : buildSelection ev bundle only_packages excluded_packages packages =
      some sel) :
    ∀ i, i ∈ sel.map Prod.fst ↔
      (i ∉ excluded_packages ∧
        SelectedCore ev bundle only_packages packages i) := by
  have hallid := allPackages_id ev packages hid
  have hallnd := allPackages_nodup ev packages hnd
  simp only [buildSelection] at hsel
  cases only_packages with
  | some ids =>
    rcases hm : ids.mapM (fun i => alookup i (allPackages ev packages)) with - | tops
    · simp only [hm] at hsel
      cases hsel
    · simp only [hm] at hsel
      rcases hr : resolve_dependencies (allPackages ev packages) tops with - | sel0
      · simp only [hr] at hsel
        cases hsel
      · simp only [hr] at hsel
        have hseleq : sel =
            sel0.filter (fun ip => decide (¬ ip.1 ∈ excluded_packages)) := by
          cases hsel
          rfl
        obtain ⟨hm1, hm2⟩ := mapM_alookup (allPackages ev packages) ids tops hm
        have htops : ∀ p ∈ tops,
            alookup p.identifier (allPackages ev packages) = some p := by
          intro p hp
          obtain ⟨j, hj, hjlk⟩ := hm2 p hp
          have hpid : p.identifier = j :=
            hallid (j, p) (alookup_some_mem j p _ hjlk)
          rw [hpid]
          exact hjlk
        have hchar := resolve_dependencies_closure (allPackages ev packages)
          tops sel0 htops hr
        have hS : ∀ t, t ∈ tops.map PackageSpec.identifier ↔ t ∈ ids := by
          intro t
          constructor
          · intro ht
            obtain ⟨p, hp, hpt⟩ := List.mem_map.mp ht
            obtain ⟨j, hj, hjlk⟩ := hm2 p hp
            have hpid : p.identifier = j :=
              hallid (j, p) (alookup_some_mem j p _ hjlk)
            rw [← hpt, hpid]
            exact hj
          · intro ht
            obtain ⟨p, hp, hplk⟩ := hm1 t ht
            have hpid : p.identifier = t :=
              hallid (t, p) (alookup_some_mem t p _ hplk)
            rw [← hpid]
            exact List.mem_map_of_mem PackageSpec.identifier hp
        intro i
        rw [hseleq, mem_keys_filter_excl]
        simp only [SelectedCore]
        constructor
        · rintro ⟨hin, hex⟩
          obtain ⟨t, ht, hreach⟩ := (hchar i).mp hin
          exact ⟨hex, t, (hS t).mp ht, hreach⟩
        · rintro ⟨hex, t, ht, hreach⟩
          exact ⟨(hchar i).mpr ⟨t, (hS t).mpr ht, hreach⟩, hex⟩
  | none =>
    cases bundle with
    | toolchain =>
      rcases hr : resolve_dependencies (allPackages ev packages)
          (((allPackages ev packages).map Prod.snd).filter
            (fun p => p.scope = some "toolchain")) with - | sel0
      · simp only [hr] at hsel
        cases hsel
      · simp only [hr] at hsel
        have hseleq : sel =
            sel0.filter (fun ip => decide (¬ ip.1 ∈ excluded_packages)) := by
          cases hsel
          rfl
        have htops : ∀ p ∈ ((allPackages ev packages).map Prod.snd).filter
            (fun p => p.scope = some "toolchain"),
            alookup p.identifier (allPackages ev packages) = some p := by
          intro p hp
          have hp' : p ∈ (allPackages ev packages).map Prod.snd :=
            (List.mem_filter.mp hp).1
          obtain ⟨ip, hip, hipp⟩ := List.mem_map.mp hp'
          have hpid : p.identifier = ip.1 := by
            rw [← hipp]
            exact hallid ip hip
          rw [hpid]
          apply alookup_mem_of_nodup _ _ _ hallnd
          rw [← hipp]
          exact hip
        have hchar := resolve_dependencies_closure (allPackages ev packages)
          _ sel0 htops hr
        have hS : ∀ t,
            t ∈ (((allPackages ev packages).map Prod.snd).filter
              (fun p => p.scope = some "toolchain")).map PackageSpec.identifier ↔
            ∃ p, alookup t (allPackages ev packages) = some p ∧
              p.scope = some "toolchain" := by
          intro t
          constructor
          · intro ht
            obtain ⟨p, hp, hpt⟩ := List.mem_map.mp ht
            refine ⟨p, ?_, ?_⟩
            · rw [← hpt]
              exact htops p hp
            · have hsc := (List.mem_filter.mp hp).2
              simpa using hsc
          · rintro ⟨p, hplk, hpscope⟩
            have hmem : (t, p) ∈ allPackages ev packages :=
              alookup_some_mem t p _ hplk
            have hpid : p.identifier = t := hallid (t, p) hmem
            rw [← hpid]
            apply List.mem_map_of_mem PackageSpec.identifier
            apply List.mem_filter.mpr
            refine ⟨?_, by simpa using hpscope⟩
            exact List.mem_map_of_mem Prod.snd hmem
        intro i
        rw [hseleq, mem_keys_filter_excl]
        simp only [SelectedCore]
        constructor
        · rintro ⟨hin, hex⟩
          obtain ⟨t, ht, hreach⟩ := (hchar i).mp hin
          obtain ⟨p, hplk, hps⟩ := (hS t).mp ht
          exact ⟨hex, t, p, hplk, hps, hreach⟩
        · rintro ⟨hex, t, p, hplk, hps, hreach⟩
          exact ⟨(hchar i).mpr ⟨t, (hS t).mpr ⟨p, hplk, hps⟩, hreach⟩, hex⟩
    | sdk =>
      have hseleq : sel =
          ((allPackages ev packages).filter (fun ip => ip.2.scope = none)).filter
            (fun ip => decide (¬ ip.1 ∈ excluded_packages)) := by
        cases hsel
        rfl
      intro i
      rw [hseleq, mem_keys_filter_excl]
      simp only [SelectedCore]
      constructor
      · rintro ⟨hin, hex⟩
        refine ⟨hex, ?_⟩
        obtain ⟨ip, hip, rfl⟩ := List.mem_map.mp hin
        obtain ⟨hl, hsc⟩ := List.mem_filter.mp hip
        refine ⟨ip.2, ?_, by simpa using hsc⟩
        exact alookup_mem_of_nodup _ _ _ hallnd hl
      · rintro ⟨hex, p, hplk, hpsc⟩
        have hmem := alookup_some_mem i p _ hplk
        refine ⟨?_, hex⟩
        exact List.mem_map_of_mem Prod.fst
          (List.mem_filter.mpr ⟨hmem, by simpa using hpsc⟩)

/-- An unscoped package depending on a toolchain-scoped one. -/
def defPkgA : PackageSpec :=
  { identifier := "a", name := "a", version := "v", url := "u", options := [],
    dependencies := [{ identifier := "b", when := none }], scope := none,
    when := none }

def defPkgB : PackageSpec :=
  { identifier := "b", name := "b", version := "v", url := "u", options := [],
    dependencies := [], scope := some "toolchain", when := none }

def defPackages : List (String × PackageSpec) :=
  [("a", defPkgA), ("b", defPkgB)]

/-- C1 counterexample: in the default SDK branch (no explicit subset) the
chosen top-level set is the unscoped packages — here `{a}` — and no
dependency closure is computed: `b` is reachable from the selected
top-level `a` along an effective dependency edge and is not excluded, yet
`b` is not selected.  The selected set therefore differs from the
reachable-set-minus-exclusions the claim promises. -/
theorem build_selection_default_no_closure :
    buildSelection (fun _ => false) Bundle.sdk none [] defPackages =
      some [("a", defPkgA)] ∧
    "a" ∈ ([("a", defPkgA)] : List (String × PackageSpec)).map Prod.fst ∧
    "b" ∉ ([("a", defPkgA)] : List (String × PackageSpec)).map Prod.fst ∧
    "b" ∉ ([] : List String) ∧
    DepEdge (allPackages (fun _ => false) defPackages) "a" "b" := by
  refine ⟨by decide, by decide, by decide, by decide, ?_⟩
  exact ⟨resolve_package (fun _ => false) defPkgA, by decide, by decide⟩

/-- An unscoped dependency with no further dependencies. -/
def chainPkgB : PackageSpec :=
  { identifier := "b", name := "b", version := "v", url := "u", options := [],
    dependencies := [], scope := none, when := none }

def chainPackages : List (String × PackageSpec) :=
  [("a", defPkgA), ("b", chainPkgB)]

/-- C1 witness: with the explicit subset `["a"]` and `a` depending on `b`,
the closure selects both, and `b`'s membership matches reachability. -/
theorem build_selection_characterization_witness :
    "b" ∈ ([("a", defPkgA), ("b", chainPkgB)] :
      List (String × PackageSpec)).map Prod.fst ↔
      ("b" ∉ ([] : List String) ∧
        SelectedCore (fun _ => false) Bundle.sdk (some ["a"]) chainPackages "b") :=
  build_selection_characterization (fun _ => false) Bundle.sdk (some ["a"]) []
    chainPackages [("a", defPkgA), ("b", chainPkgB)]
    (by decide) (by decide) (by decide) "b"

end Releng
